import Mathlib

/-!
Shallow embedding of the core of `repopath-sanitizer`
(`src/repopath_sanitizer/pathrules.py` and `src/repopath_sanitizer/engine.py`).

Python strings are modelled as Lean `String` (a structure over `List Char`);
all string operations are defined over the underlying `List Char` so their
semantics match Python: slicing, `str.split`, `str.count`, `str.rstrip`,
`re.sub` on the concrete regexes used, `str.rpartition`, `str.startswith`.
Python dicts are modelled as insertion-ordered association lists with
update-in-place semantics; Python sets as lists used only through membership.

Library calls from outside the repository are modelled explicitly:
`str.casefold`, `unicodedata.normalize("NFC", ...)` and
`hashlib.sha1(...).hexdigest()[:6]` (see the doc comments on `str_casefold`,
`nfcChars` and `hash6`).
-/

namespace RepoPathSanitizer

/-! ## Basic Python-string operations over `List Char` -/

/-- Python `s.split("/")` on the character list: always returns at least one
(possibly empty) piece, e.g. `"" ↦ [""]`, `"/" ↦ ["", ""]`. -/
def splitChars (sep : Char) : List Char → List (List Char)
  | [] => [[]]
  | c :: rest =>
    let r := splitChars sep rest
    if c = sep then [] :: r
    else
      match r with
      | h :: t => (c :: h) :: t
      | [] => [[c]]

def split_slash (s : String) : List String := (splitChars '/' s.data).map (⟨·⟩)

/-- Python `"/".join` on character lists. -/
def joinChars : List (List Char) → List Char
  | [] => []
  | x :: t =>
    match t with
    | [] => x
    | _ :: _ => x ++ '/' :: joinChars t

def join_slash (l : List String) : String := ⟨joinChars (l.map String.data)⟩

/-- Python `s.count("/")` (single-character needle: number of occurrences). -/
def slash_count (s : String) : Nat := s.data.count '/'

/-- Replace every occurrence of the character `old` by the string `new`
(Python `s.replace(old, new)` for a one-character `old`). -/
def replaceChar (old : Char) (new : List Char) : List Char → List Char
  | [] => []
  | c :: r => (if c = old then new else [c]) ++ replaceChar old new r

/-- Models Python `str.casefold()` (full Unicode case folding), restricted to
per-character lowercasing; the algorithms under verification only use it as a
key function, so only which strings share a key matters. -/
def str_casefold (s : String) : String := ⟨s.data.map Char.toLower⟩

/-- The composition table of the NFC model: a small set of canonical
(base, combining mark) → precomposed compositions.  Models the canonical
composition data used by `unicodedata.normalize("NFC", ...)`. -/
def nfcCompose (a b : Char) : Option Char :=
  if a = 'e' ∧ b = Char.ofNat 0x301 then some (Char.ofNat 0xE9)
  else if a = 'a' ∧ b = Char.ofNat 0x301 then some (Char.ofNat 0xE1)
  else if a = 'o' ∧ b = Char.ofNat 0x301 then some (Char.ofNat 0xF3)
  else none

/-- The left-to-right composition scan of the NFC model; the fuel argument
bounds the number of steps (each step shortens the remaining work by one, so
fuel equal to the list length never runs out). -/
def nfcGo : Nat → List Char → List Char
  | 0, l => l
  | _ + 1, [] => []
  | _ + 1, [c] => [c]
  | fuel + 1, a :: b :: r =>
    match nfcCompose a b with
    | some c => nfcGo fuel (c :: r)
    | none => a :: nfcGo fuel (b :: r)

/-- Models `unicodedata.normalize("NFC", ...)`: canonical composition of
adjacent (base, combining-mark) pairs, using the table `nfcCompose`. -/
def nfcChars (l : List Char) : List Char := nfcGo l.length l

/-! ## pathrules.py: constants and segment-level predicates -/

/-- `FORBIDDEN_CHARS = set('<>:"/\|?*')`. -/
def FORBIDDEN_CHARS : List Char := ['<', '>', ':', '"', '/', '\\', '|', '?', '*']

/-- `CONTROL_RE = re.compile(r"[\x00-\x1F]")`: control characters 0-31. -/
def isCtrl (c : Char) : Bool := c.toNat < 32

def hasCtrl (l : List Char) : Bool := l.any isCtrl

/-- `CONTROL_RE.sub("", s)`. -/
def ctrlFilter (l : List Char) : List Char := l.filter (fun c => !isCtrl c)

def RESERVED_DEVICE_NAMES : List String :=
  ["CON", "PRN", "AUX", "NUL",
   "COM1", "COM2", "COM3", "COM4", "COM5", "COM6", "COM7", "COM8", "COM9",
   "LPT1", "LPT2", "LPT3", "LPT4", "LPT5", "LPT6", "LPT7", "LPT8", "LPT9"]

/-- `_is_reserved_device`: the part of the segment before its first `.`,
upper-cased, is a reserved Windows device name. -/
def is_reserved_device (l : List Char) : Bool :=
  RESERVED_DEVICE_NAMES.contains ⟨(l.takeWhile (fun c => c != '.')).map Char.toUpper⟩

def trailSP (c : Char) : Bool := c == ' ' || c == '.'

/-- `_has_trailing_space_or_period`. -/
def has_trailing_space_or_period (l : List Char) : Bool :=
  match l.getLast? with
  | some c => trailSP c
  | none => false

/-- Python `s.rstrip(" .")`. -/
def rstripSP (l : List Char) : List Char := (l.reverse.dropWhile trailSP).reverse

/-- `_contains_forbidden`. -/
def contains_forbidden (l : List Char) : Bool :=
  l.any (fun c => FORBIDDEN_CHARS.contains c) || hasCtrl l

/-- `MULTISPACE_RE.search(s)`: the string contains two adjacent spaces. -/
def hasMultiSpace : List Char → Bool
  | ' ' :: ' ' :: _ => true
  | _ :: r => hasMultiSpace r
  | [] => false

/-- `MULTISPACE_RE.sub(" ", s)`: collapse every run of 2+ spaces to one
(a space that is immediately followed by another space is dropped). -/
def multispace_collapse : List Char → List Char
  | [] => []
  | a :: t =>
    match t with
    | [] => [a]
    | b :: _ => if a = ' ' ∧ b = ' ' then multispace_collapse t else a :: multispace_collapse t

/-- `SUBSTITUTIONS`, in the (insertion-ordered) iteration order of the Python
dict, together with the change note recorded for each entry. -/
def SUBSTITUTIONS : List (Char × List Char × String) :=
  [(':', [' ', '-'], "Replace \":\" -> \" -\""),
   ('|', ['-'], "Replace \"|\" -> \"-\""),
   ('\\', ['-'], "Replace \"\\\" -> \"-\""),
   ('/', ['-'], "Replace \"/\" -> \"-\""),
   ('<', [], "Replace \"<\" -> \"\""),
   ('>', [], "Replace \">\" -> \"\""),
   ('"', [], "Replace quote -> \"\""),
   ('?', [], "Replace \"?\" -> \"\""),
   ('*', [], "Replace \"*\" -> \"\"")]

/-! ## pathrules.py: config, SegmentFix, fix_segment -/

/-- Modelled from the spec: `DEFAULT_WIN_MAX_PATH` lives in
`repopath_sanitizer/constants.py`, which is not part of the sources; §3 of the
spec gives the default length threshold as 260. -/
def DEFAULT_WIN_MAX_PATH : Nat := 260

structure ScanConfig where
  max_path : Nat := DEFAULT_WIN_MAX_PATH
  normalize_unicode_nfc : Bool := false
  collapse_spaces : Bool := false
  deriving DecidableEq, Repr

structure SegmentFix where
  original : String
  fixed : String
  changes : List String
  deriving DecidableEq, Repr

/-- The substitutions loop of `fix_segment`: for each table entry, if the
character occurs, replace it and record the note when the value changed. -/
def subst_pass : List (Char × List Char × String) → List Char × List String → List Char × List String
  | [], p => p
  | (ch, repl, note) :: rest, (out, chs) =>
    subst_pass rest
      (if ch ∈ out then
        let out2 := replaceChar ch repl out
        if out2 ≠ out then (out2, chs ++ [note]) else (out, chs)
      else (out, chs))

/-- The control-character block of `fix_segment`. -/
def ctrl_stage (p : List Char × List String) : List Char × List String :=
  if hasCtrl p.1 then
    let out2 := ctrlFilter p.1
    if out2 ≠ p.1 then (out2, p.2 ++ ["Remove control chars (0-31)"]) else p
  else p

/-- The trailing space/period block of `fix_segment`. -/
def trim_stage (p : List Char × List String) : List Char × List String :=
  if has_trailing_space_or_period p.1 then
    let out2 := rstripSP p.1
    if out2 ≠ p.1 then (out2, p.2 ++ ["Trim trailing spaces/periods"]) else p
  else p

/-- The reserved-device-name block of `fix_segment`. -/
def device_stage (p : List Char × List String) : List Char × List String :=
  if is_reserved_device p.1 then (p.1 ++ ['_'], p.2 ++ ["Append _ to reserved device name"])
  else p

/-- The optional space-collapsing block of `fix_segment`. -/
def space_stage (cfg : ScanConfig) (p : List Char × List String) : List Char × List String :=
  if cfg.collapse_spaces then
    let out2 := multispace_collapse p.1
    if out2 ≠ p.1 then (out2, p.2 ++ ["Collapse multiple spaces"]) else p
  else p

/-- The optional NFC block of `fix_segment`. -/
def nfc_stage (cfg : ScanConfig) (p : List Char × List String) : List Char × List String :=
  if cfg.normalize_unicode_nfc then
    let out2 := nfcChars p.1
    if out2 ≠ p.1 then (out2, p.2 ++ ["Normalize Unicode to NFC"]) else p
  else p

/-- `fix_segment` from pathrules.py. -/
def fix_segment (seg : String) (cfg : ScanConfig) : SegmentFix :=
  let r := nfc_stage cfg (space_stage cfg (device_stage (trim_stage (ctrl_stage
    (subst_pass SUBSTITUTIONS (seg.data, []))))))
  ⟨seg, ⟨r.1⟩, r.2⟩

/-! ## Spec-side restatement of the six fix steps (§4.1 of the spec),
used to state the refinement claim C4. -/

/-- Spec step 1: apply the fixed substitution table. -/
def subst_step (l : List Char) : List Char :=
  SUBSTITUTIONS.foldl (fun acc e => replaceChar e.1 e.2.1 acc) l

/-- Spec step 2: strip remaining control characters. -/
def ctrl_step (l : List Char) : List Char := ctrlFilter l

/-- Spec step 3: right-strip trailing spaces and periods. -/
def trim_step (l : List Char) : List Char := rstripSP l

/-- Spec step 4: append `_` to a reserved device name. -/
def device_step (l : List Char) : List Char :=
  if is_reserved_device l then l ++ ['_'] else l

/-- Spec step 5: collapse runs of 2+ spaces when enabled. -/
def space_step (cfg : ScanConfig) (l : List Char) : List Char :=
  if cfg.collapse_spaces then multispace_collapse l else l

/-- Spec step 6: NFC-normalize when enabled. -/
def nfc_step (cfg : ScanConfig) (l : List Char) : List Char :=
  if cfg.normalize_unicode_nfc then nfcChars l else l

/-! ## pathrules.py: validation -/

/-- `validate_segments`. -/
def validate_segments (segments : List String) : List (String × String) :=
  segments.foldl
    (fun acc seg =>
      if seg = "" ∨ seg = "." ∨ seg = ".." then acc
      else
        acc ++
        (if contains_forbidden seg.data then
          [("FORBIDDEN_CHARS", "Segment contains forbidden Windows characters or control chars: " ++ seg)]
        else []) ++
        (if has_trailing_space_or_period seg.data then
          [("TRAILING_SPACE_PERIOD", "Segment ends with a trailing space or period: " ++ seg)]
        else []) ++
        (if is_reserved_device seg.data then
          [("RESERVED_DEVICE", "Segment is a reserved Windows device name: " ++ seg)]
        else []))
    []

/-- `validate_rel_path` (the length check is `len(rel_path) >= max_path`). -/
def validate_rel_path (rel_path : String) (cfg : ScanConfig) : List (String × String) :=
  validate_segments (split_slash rel_path) ++
  (if cfg.max_path ≤ rel_path.length then
    [("PATH_TOO_LONG", "Relative path length exceeds configured limit.")]
  else [])

/-- `windows_casefold_path`. -/
def windows_casefold_path (rel_path : String) : String := str_casefold rel_path

/-- `nfc_path`. -/
def nfc_path (rel_path : String) : String := ⟨nfcChars rel_path.data⟩

/-! ## pathrules.py: generate_fix_options -/

/-- `generate_fix_options`: list of (key, label, new_rel_path, warnings). -/
def generate_fix_options (rel_path : String) (cfg : ScanConfig) :
    List (String × String × String × List String) :=
  let fixes := (split_slash rel_path).map (fun seg => fix_segment seg cfg)
  let fixed_segments := fixes.map (·.fixed)
  let any_changes := fixes.any (fun fx => fx.fixed != fx.original)
  let changes_all := fixes.foldl
    (fun acc fx =>
      if fx.fixed ≠ fx.original then
        acc ++ fx.changes.map (fun c => fx.original ++ ": " ++ c)
      else acc) []
  let fixed_path := join_slash fixed_segments
  let opts :=
    if any_changes = true ∧ fixed_path ≠ rel_path then
      [("auto", "Auto sanitize (recommended)", fixed_path, changes_all)]
    else
      [("none", "No change", rel_path, ([] : List String))]
  let opts := opts ++
    (let nfcp := nfc_path rel_path
     if nfcp ≠ rel_path then
       [("nfc", "Normalize Unicode to NFC", nfcp, ["Normalize full path to NFC"])]
     else [])
  let opts := opts ++
    (if hasMultiSpace rel_path.data then
       let collapsed : String := ⟨multispace_collapse rel_path.data⟩
       if collapsed ≠ rel_path then
         [("spaces", "Collapse multiple spaces", collapsed, ["Collapse multiple spaces"])]
       else []
     else [])
  opts

/-! ## Association lists modelling Python dicts -/

/-- Lookup in an insertion-ordered association list (Python `d.get`). -/
def lookup_assoc {β : Type} (k : String) : List (String × β) → Option β
  | [] => none
  | (a, b) :: r => if a = k then some b else lookup_assoc k r

/-- `d[k] = v` on an insertion-ordered association list: replace in place if
the key exists, else append at the end. -/
def update_assoc {β : Type} (k : String) (v : β) : List (String × β) → List (String × β)
  | [] => [(k, v)]
  | (a, b) :: r => if a = k then (k, v) :: r else (a, b) :: update_assoc k v r

/-! ## pathrules.py: disambiguate_targets -/

/-- Python `t.rpartition(".")`, on character lists: split at the last `.`,
returning `some (before, after)`, or `none` when there is no `.`. -/
def rpartition_dot : List Char → Option (List Char × List Char)
  | [] => none
  | c :: rest =>
    match rpartition_dot rest with
    | some (b, a) => some (c :: b, a)
    | none => if c = '.' then some ([], rest) else none

/-- The suffixed name built by `disambiguate_targets` for the `n`-th collision:
`root_n.ext` when the target has an extension, `t_n` otherwise. -/
def collision_suffix (t : String) (n : Nat) : String :=
  match rpartition_dot t.data with
  | some (root, ext) => ⟨root ++ ('_' :: Nat.toDigits 10 n) ++ ('.' :: ext)⟩
  | none => ⟨t.data ++ ('_' :: Nat.toDigits 10 n)⟩

/-- The loop of `disambiguate_targets`: `out` is the result dict, `seen` maps a
case-fold key to the number of collisions recorded so far for that key. -/
def disamb_go : List String → List (String × String) → List (String × Nat) → List (String × String)
  | [], out, _ => out
  | t :: rest, out, seen =>
    let key := str_casefold t
    match lookup_assoc key seen with
    | none => disamb_go rest (update_assoc t t out) (update_assoc key 0 seen)
    | some n0 => disamb_go rest (update_assoc t (collision_suffix t (n0 + 1)) out)
        (update_assoc key (n0 + 1) seen)

/-- `disambiguate_targets`. -/
def disambiguate_targets (targets : List String) : List (String × String) :=
  disamb_go targets [] []

/-! ## pathrules.py: shorten_path -/

/-- Hex digit for a value below 16. -/
def hexDigit (k : Nat) : Char := if k < 10 then Char.ofNat (48 + k) else Char.ofNat (87 + k)

/-- Models `hashlib.sha1(s.encode(...)).hexdigest()[:6]`: a deterministic
6-hex-character digest of the string.  Only its determinism and its length
matter to the claims about `shorten_path`. -/
def hash6 (s : String) : String :=
  let n := s.data.foldl (fun a c => (a * 31 + c.toNat) % 16777216) 7
  ⟨(List.range 6).map (fun i => hexDigit (n / 16 ^ i % 16))⟩

/-- Python slice `s[:k]` for an arbitrary (possibly negative) `k`. -/
def py_slice_to (s : String) (k : Int) : String :=
  if k < 0 then ⟨s.data.take (s.data.length - k.natAbs)⟩ else ⟨s.data.take k.toNat⟩

/-- The truncated replacement for an over-long segment in `shorten_path`:
first 8 characters, a dash, and the 6-hex digest of the original segment. -/
def seg_trunc (seg : String) : String := ⟨seg.data.take 8⟩ ++ "-" ++ hash6 seg

/-- The `for i in range(len(segs))` loop of `shorten_path`, iterating over the
list of indices `range(len(segs))` (each index is in bounds throughout, since
`list.set` preserves length; `getD` matches Python indexing there). -/
def shorten_go (max_len : Nat) : List Nat → List String → List String
  | [], segs => segs
  | i :: is, segs =>
    if (join_slash segs).length ≤ max_len then segs
    else
      shorten_go max_len is
        (if (segs.getD i "").length > 12 then segs.set i (seg_trunc (segs.getD i "")) else segs)

/-- `shorten_path`. -/
def shorten_path (rel_path : String) (max_len : Nat) : String :=
  if rel_path.length ≤ max_len then rel_path
  else
    let segs0 := split_slash rel_path
    let segs := shorten_go max_len (List.range segs0.length) segs0
    let shortened := join_slash segs
    if shortened.length > max_len then
      py_slice_to shortened ((max_len : Int) - 7) ++ "-" ++ hash6 rel_path
    else shortened

/-! ## models.py -/

inductive ItemType where
  | FILE
  | FOLDER
  | SYMLINK
  deriving DecidableEq, Repr

structure Issue where
  code : String
  message : String
  segment : Option String := none
  deriving DecidableEq, Repr

structure FixOption where
  key : String
  label : String
  preview_path : String
  warnings : List String := []
  deriving DecidableEq, Repr

structure ScanItem where
  item_type : ItemType
  rel_path : String
  abs_path : String
  issues : List Issue := []
  proposed_fix : Option String := none
  fix_options : List FixOption := []
  chosen_fix_key : Option String := none
  status : String := "Pending"
  selected : Bool := true
  warnings : List String := []
  deriving DecidableEq, Repr

/-! ## engine.py: collision detectors -/

/-- The map-building loop shared by both detectors: Python
`m.setdefault(key(p), []).append(p)` over an insertion-ordered dict. -/
def path_map_go (keyf : String → String) (acc : List (String × List String)) :
    List String → List (String × List String)
  | [] => acc
  | p :: rest =>
    path_map_go keyf
      (match lookup_assoc (keyf p) acc with
       | some v => update_assoc (keyf p) (v ++ [p]) acc
       | none => update_assoc (keyf p) [p] acc)
      rest

/-- `detect_collisions_case_insensitive`: keep the groups with 2+ members. -/
def detect_collisions_case_insensitive (paths : List String) : List (String × List String) :=
  (path_map_go windows_casefold_path [] paths).filter (fun kv => kv.2.length > 1)

/-- Python `list(dict.fromkeys(v))`: deduplicate keeping first occurrences. -/
def dedup_first : List String → List String
  | [] => []
  | x :: r => x :: (dedup_first r).filter (fun y => y ≠ x)

/-- `detect_collisions_nfc`: keep groups with 2+ distinct original members. -/
def detect_collisions_nfc (paths : List String) : List (String × List String) :=
  (path_map_go nfc_path [] paths).filterMap
    (fun kv =>
      let uniq := dedup_first kv.2
      if uniq.length > 1 then some (kv.1, uniq) else none)

/-! ## engine.py: build_scan

The repository enumeration (`git ls-files` via gitutils) and the filesystem
classification (`Path.is_dir` / `Path.is_symlink`) are external effects; they
enter the model as the parameters `files`, `is_dir` and `is_link`.  The run
metadata dict (timestamp, echoed config, ...) is I/O glue and is not modelled;
`build_scan` here returns the item list. -/

/-- `_dirs_from_files`, composed with the `sorted(...)` applied to it in
`build_scan`: all strict ancestor directory paths of a file path. -/
def ancestors (f : String) : List String :=
  let parts := split_slash f
  (List.range (parts.length - 1)).map (fun i => join_slash (parts.take (i + 1)))

/-- Code-point lexicographic order on character lists (Python `str` `<=`). -/
def lexLe : List Char → List Char → Bool
  | [], _ => true
  | _ :: _, [] => false
  | a :: as, b :: bs =>
    if a.toNat < b.toNat then true
    else if b.toNat < a.toNat then false
    else lexLe as bs

/-- Stable insertion (used to model Python's stable `sorted` / `list.sort`):
`x` is placed before the first element `y` with `le x y`. -/
def insertB {α : Type} (le : α → α → Bool) (x : α) : List α → List α
  | [] => [x]
  | y :: ys => if le x y then x :: y :: ys else y :: insertB le x ys

/-- Stable insertion sort; for a total transitive `le` this computes the same
list as Python's stable sort. -/
def sortB {α : Type} (le : α → α → Bool) (l : List α) : List α :=
  l.foldr (insertB le) []

/-- The iteration order of `build_scan`: `sorted(all_paths, key=lambda s:
(s.count("/"), s))`. -/
def scan_order_le (a b : String) : Bool :=
  if slash_count a < slash_count b then true
  else if slash_count b < slash_count a then false
  else lexLe a.data b.data

/-- `rel == ".git" or rel.startswith(".git/")`. -/
def is_git_path (s : String) : Bool :=
  s == ".git" || List.isPrefixOf ['.', 'g', 'i', 't', '/'] s.data

/-- `fix_options[0].key if fix_options else None`. -/
def head_key (l : List FixOption) : Option String :=
  match l with
  | o :: _ => some o.key
  | [] => none

/-- The fix-option block of `build_scan`'s per-path loop: builds the
`FixOption` list from the generator, appends the `"shorten"` option when the
path is over-long, and picks the proposed fix (the first option's preview, or
the shortened path when the path is over-long and the first option proposed no
change).  Returns (fix options, proposed fix). -/
def scan_fix (rel : String) (cfg : ScanConfig) : List FixOption × String :=
  let opts_raw := generate_fix_options rel cfg
  let fix_options0 := opts_raw.map (fun o => FixOption.mk o.1 o.2.1 o.2.2.1 o.2.2.2)
  let proposed0 := match fix_options0 with
    | o :: _ => o.preview_path
    | [] => rel
  let short := shorten_path rel cfg.max_path
  if rel.length > cfg.max_path then
    (fix_options0 ++
      [FixOption.mk "shorten" "Shorten to configured limit" short
        ["Heuristic truncation with hash suffix"]],
     if proposed0 = rel then short else proposed0)
  else (fix_options0, proposed0)

/-- The body of the per-path loop of `build_scan`: returns `none` when the
path is skipped (`.git` guard) or has no issues. -/
def scan_item (repo : String) (cfg : ScanConfig) (is_dir is_link : String → Bool)
    (case_coll nfc_coll : List (String × List String)) (rel : String) : Option ScanItem :=
  if is_git_path rel then none
  else
    let abs_path := repo ++ "/" ++ rel
    let is_l := is_link rel
    let item_type := if is_l then ItemType.SYMLINK
      else if is_dir rel then ItemType.FOLDER else ItemType.FILE
    let issues0 := (validate_rel_path rel cfg).map (fun cm => Issue.mk cm.1 cm.2 none)
    let issues1 := issues0 ++
      (match lookup_assoc (windows_casefold_path rel) case_coll with
       | some _ => [Issue.mk "CASE_COLLISION" "Case-insensitive collision group" none]
       | none => []) ++
      (match lookup_assoc (nfc_path rel) nfc_coll with
       | some _ => [Issue.mk "UNICODE_NFC_COLLISION" "NFC normalization collision group" none]
       | none => [])
    let warnings : List String :=
      if is_l then ["Symlink detected. Windows behavior depends on git config and permissions."]
      else []
    let issues2 := issues1 ++
      (if is_l then [Issue.mk "SYMLINK" "Symlink detected (warning)." none] else [])
    if issues2 = [] then none
    else
      some (ScanItem.mk item_type rel abs_path issues2 (some (scan_fix rel cfg).2)
        (scan_fix rel cfg).1 (head_key (scan_fix rel cfg).1) "Pending" true warnings)

/-- `build_scan` (item list; see the section comment for what is external). -/
def build_scan (repo : String) (files : List String) (is_dir is_link : String → Bool)
    (cfg : ScanConfig) : List ScanItem :=
  let dirs := sortB (fun a b => lexLe a.data b.data)
    (dedup_first (files.foldl (fun acc f => acc ++ ancestors f) []))
  let all_paths := files ++ dirs
  let case_coll := detect_collisions_case_insensitive all_paths
  let nfc_coll := detect_collisions_nfc all_paths
  (sortB scan_order_le all_paths).filterMap
    (scan_item repo cfg is_dir is_link case_coll nfc_coll)

/-! ## engine.py: plan_renames -/

/-- The selection filter of `plan_renames`: selected items whose
`proposed_fix` is truthy (non-`None`, non-empty) and differs from `rel_path`. -/
def plan_selected (items : List ScanItem) : List ScanItem :=
  items.filter (fun it =>
    it.selected &&
    (match it.proposed_fix with
     | some p => p != "" && p != it.rel_path
     | none => false))

/-- `selected.sort(key=lambda it: it.rel_path.count("/"), reverse=True)`:
stable, deepest first. -/
def plan_sort (l : List ScanItem) : List ScanItem :=
  sortB (fun a b => decide (slash_count b.rel_path ≤ slash_count a.rel_path)) l

/-- The emission loop of `plan_renames`; `used` is the `used_ci` set of
case-fold keys of already-accepted destinations. -/
def plan_loop (disamb : List (String × String)) :
    List ScanItem → List String → List (String × String) × List String
  | [], _ => ([], [])
  | it :: rest, used =>
    let p := it.proposed_fix.getD ""
    let dst0 := (lookup_assoc p disamb).getD p
    let w1 : List String :=
      if dst0 ≠ p then ["Collision: " ++ p ++ " adjusted to " ++ dst0] else []
    if is_git_path it.rel_path || is_git_path dst0 then
      let r := plan_loop disamb rest used
      (r.1, w1 ++ ("Refusing to rename .git internals: " ++ it.rel_path) :: r.2)
    else
      let k := str_casefold dst0
      let dw :=
        if k ∈ used then (dst0 ++ "_x", ["Additional collision guard applied: " ++ it.rel_path])
        else (dst0, ([] : List String))
      let r := plan_loop disamb rest (k :: used)
      ((it.rel_path, dw.1) :: r.1, w1 ++ dw.2 ++ r.2)

/-- `plan_renames`: (rename operations, warnings).  The `config` parameter is
accepted and unused, as in the source. -/
def plan_renames (items : List ScanItem) (_cfg : ScanConfig) :
    List (String × String) × List String :=
  let selected := plan_sort (plan_selected items)
  let targets := selected.map (fun it => it.proposed_fix.getD "")
  let disamb := disambiguate_targets targets
  plan_loop disamb selected []

/-! ## General helper lemmas -/

set_option maxRecDepth 400000

theorem string_mk_length (l : List Char) : (⟨l⟩ : String).length = l.length := rfl

theorem hash6_length (s : String) : (hash6 s).length = 6 := by
  simp [hash6, String.length]

theorem py_slice_to_length (s : String) (k : Int) (h : 0 ≤ k) :
    (py_slice_to s k).length ≤ k.toNat := by
  simp only [py_slice_to, if_neg (show ¬ k < 0 by omega)]
  show (s.data.take k.toNat).length ≤ k.toNat
  simp [List.length_take]

theorem dash_length : ("-" : String).length = 1 := rfl

/-- The final clamp of `shorten_path`: for a budget of at least 7 the result
fits the budget whatever the intermediate string is. -/
theorem shorten_final_clamp (s rel_path : String) (max_len : Nat) (h : 7 ≤ max_len) :
    (if s.length > max_len then py_slice_to s ((max_len : Int) - 7) ++ "-" ++ hash6 rel_path
     else s).length ≤ max_len := by
  split
  · rw [String.length_append, String.length_append, hash6_length, dash_length]
    have h1 := py_slice_to_length s ((max_len : Int) - 7) (by omega)
    omega
  · omega

/-! ## C6: shorten_path stays within the requested maximum -/

/-- C6, counterexample: the claim "for every requested maximum length,
`shorten_path` returns a string whose length is at most the requested maximum"
fails at `max_len = 0`: on a 20-character input the last-resort branch slices
with the negative Python index `0 - 7` and still appends the 7-character
`-`+hash suffix, returning a 15-character string. -/
theorem shorten_path_budget_cex :
    ¬ ((shorten_path ⟨List.replicate 20 'a'⟩ 0).length ≤ 0) := by decide

/-- C6, amended: for every input string and every requested maximum length of
at least 7 (so that the last-resort slice `max_len - 7` is non-negative),
`shorten_path` returns a string of length at most the requested maximum,
including for arbitrarily long inputs. -/
theorem shorten_path_within_budget (rel_path : String) (max_len : Nat) (h : 7 ≤ max_len) :
    (shorten_path rel_path max_len).length ≤ max_len := by
  unfold shorten_path
  split
  · assumption
  · exact shorten_final_clamp _ _ _ h

/-- Witness for C6: the amended theorem applied at a concrete long input and
budget 120 (the budget used by the repository's own test). -/
theorem shorten_path_within_budget_witness :
    7 ≤ 120 ∧ (shorten_path ⟨List.replicate 300 'a'⟩ 120).length ≤ 120 :=
  ⟨by decide, shorten_path_within_budget ⟨List.replicate 300 'a'⟩ 120 (by decide)⟩

/-! ## C1: the rename plan is not always collision-free -/

/-- C1: evaluating `plan_renames` at the failing input — three selected items
whose `proposed_fix` is the same path `"x"` — shows the emitted plan is not
collision-free: `disambiguate_targets` maps the shared target to the single
destination `"x_2"`, the residual guard rewrites the second and the third
operation to the *same* destination `"x_2_x"` (it records the old key, not the
new one, in `used_ci`), so two distinct operations share a case-fold-equal
destination. -/
theorem plan_renames_collision_bug :
    ¬ ((plan_renames
        [ScanItem.mk .FILE "a" "repo/a" [] (some "x") [] none "Pending" true [],
         ScanItem.mk .FILE "b" "repo/b" [] (some "x") [] none "Pending" true [],
         ScanItem.mk .FILE "c" "repo/c" [] (some "x") [] none "Pending" true []]
        ⟨260, false, false⟩).1.Pairwise
      (fun o1 o2 => windows_casefold_path o1.2 ≠ windows_casefold_path o2.2)) := by
  decide

/-! ## C7 and C8: counterexamples about duplicate inputs -/

/-- C7, counterexample: the claim says a key is reported only when two
*distinct* paths share it, but on the duplicated input `["x", "x"]` the
case-insensitive detector (which does not deduplicate) reports key `"x"`
although the list has no two distinct members. -/
theorem detect_case_insensitive_duplicates_cex :
    (∃ v, ("x", v) ∈ detect_collisions_case_insensitive ["x", "x"]) ∧
      ¬ (∃ p ∈ ["x", "x"], ∃ q ∈ ["x", "x"], p ≠ q ∧
          windows_casefold_path p = "x" ∧ windows_casefold_path q = "x") := by
  constructor
  · exact ⟨["x", "x"], by decide⟩
  · decide

/-- C8, counterexample: on the duplicated input `["x", "x"]` the returned dict
maps the target `"x"` — which is the first (indeed the only) target string,
whose case-fold key is seen for the first time at index 0 — to the suffixed
path `"x_1"` rather than to itself, because the second occurrence overwrites
the dict entry of the first. -/
theorem disambiguate_targets_duplicates_cex :
    lookup_assoc "x" (disambiguate_targets ["x", "x"]) = some "x_1" ∧ "x_1" ≠ "x" := by
  decide

/-! ## Sortedness of the stable insertion model of Python sort -/

theorem mem_insertB {α : Type} (le : α → α → Bool) (a x : α) (l : List α)
    (h : x ∈ insertB le a l) : x = a ∨ x ∈ l := by
  induction l with
  | nil => simpa [insertB] using h
  | cons y ys ih =>
    simp only [insertB] at h
    split at h
    · rcases List.mem_cons.mp h with rfl | h2
      · exact Or.inl rfl
      · exact Or.inr h2
    · rcases List.mem_cons.mp h with rfl | h2
      · exact Or.inr (List.mem_cons_self _ _)
      · rcases ih h2 with h3 | h4
        · exact Or.inl h3
        · exact Or.inr (List.mem_cons_of_mem _ h4)

theorem pairwise_insertB {α : Type} (le : α → α → Bool)
    (htot : ∀ a b, le a b = true ∨ le b a = true)
    (htrans : ∀ a b c, le a b = true → le b c = true → le a c = true)
    (a : α) (l : List α) (h : l.Pairwise (fun x y => le x y = true)) :
    (insertB le a l).Pairwise (fun x y => le x y = true) := by
  induction l with
  | nil => simp [insertB]
  | cons y ys ih =>
    rcases List.pairwise_cons.mp h with ⟨hy, hys⟩
    simp only [insertB]
    split
    · next hay =>
      refine List.pairwise_cons.mpr ⟨?_, h⟩
      intro b hb
      rcases List.mem_cons.mp hb with rfl | hmem
      · exact hay
      · exact htrans a y b hay (hy b hmem)
    · next hay =>
      have hya : le y a = true := by
        rcases htot a y with h1 | h1
        · exact absurd h1 hay
        · exact h1
      refine List.pairwise_cons.mpr ⟨?_, ih hys⟩
      intro b hb
      rcases mem_insertB le a b ys hb with rfl | hmem
      · exact hya
      · exact hy b hmem

theorem pairwise_sortB {α : Type} (le : α → α → Bool)
    (htot : ∀ a b, le a b = true ∨ le b a = true)
    (htrans : ∀ a b c, le a b = true → le b c = true → le a c = true)
    (l : List α) : (sortB le l).Pairwise (fun x y => le x y = true) := by
  induction l with
  | nil => simp [sortB]
  | cons x xs ih => exact pairwise_insertB le htot htrans x _ ih

/-! ## plan_renames: structure of the emitted operation list -/

theorem plan_loop_sources_sublist (disamb : List (String × String)) :
    ∀ (l : List ScanItem) (used : List String),
      List.Sublist ((plan_loop disamb l used).1.map Prod.fst) (l.map ScanItem.rel_path) := by
  intro l
  induction l with
  | nil => intro used; simp [plan_loop]
  | cons it rest ih =>
    intro used
    simp only [plan_loop]
    split
    · simpa using List.Sublist.cons it.rel_path (ih used)
    · simpa using List.Sublist.cons₂ it.rel_path (ih _)

/-- The depths of the sources of the emitted rename operations are
non-increasing along the plan. -/
theorem plan_ops_pairwise (items : List ScanItem) (cfg : ScanConfig) :
    (plan_renames items cfg).1.Pairwise
      (fun o1 o2 => slash_count o2.1 ≤ slash_count o1.1) := by
  have hsorted : (plan_sort (plan_selected items)).Pairwise
      (fun a b => slash_count b.rel_path ≤ slash_count a.rel_path) := by
    have h := pairwise_sortB
      (fun a b : ScanItem => decide (slash_count b.rel_path ≤ slash_count a.rel_path))
      (fun a b => by
        rcases Nat.le_total (slash_count b.rel_path) (slash_count a.rel_path) with h | h
        · exact Or.inl (by simpa using h)
        · exact Or.inr (by simpa using h))
      (fun a b c h1 h2 => by
        simp only [decide_eq_true_eq] at h1 h2 ⊢
        omega)
      (plan_selected items)
    exact h.imp (fun hx => by simpa using hx)
  have hmap : ((plan_sort (plan_selected items)).map ScanItem.rel_path).Pairwise
      (fun a b => slash_count b ≤ slash_count a) := List.pairwise_map.mpr hsorted
  have hsub := plan_loop_sources_sublist
    (disambiguate_targets ((plan_sort (plan_selected items)).map (fun it => it.proposed_fix.getD "")))
    (plan_sort (plan_selected items)) []
  have hops := hmap.sublist hsub
  exact List.pairwise_map.mp hops

/-- `a` is a strict ancestor directory path of `b`: `b` starts with `a ++ "/"`. -/
def is_ancestor_path (a b : String) : Bool := (a.data ++ ['/']).isPrefixOf b.data

theorem slash_count_lt_of_ancestor {a b : String} (h : is_ancestor_path a b = true) :
    slash_count a < slash_count b := by
  have hp : (a.data ++ ['/']) <+: b.data := List.isPrefixOf_iff_prefix.mp h
  have hcount := hp.sublist.count_le '/'
  simp only [List.count_append] at hcount
  have hone : (['/'] : List Char).count '/' = 1 := by decide
  rw [hone] at hcount
  simpa [slash_count] using hcount

/-! ## C3: the plan is ordered deepest-first -/

/-- C3: in the operation list returned by `plan_renames`, an operation whose
source is a strict ancestor (at strictly smaller slash depth) of another
operation's source appears strictly later: the plan is ordered deepest-first
by segment count. -/
theorem plan_renames_deepest_first (items : List ScanItem) (cfg : ScanConfig)
    (i j : Nat) (hi : i < (plan_renames items cfg).1.length)
    (hj : j < (plan_renames items cfg).1.length)
    (hanc : is_ancestor_path ((plan_renames items cfg).1.get ⟨j, hj⟩).1
        ((plan_renames items cfg).1.get ⟨i, hi⟩).1 = true) :
    i < j := by
  have hlt := slash_count_lt_of_ancestor hanc
  by_contra hij
  push_neg at hij
  rcases Nat.lt_or_ge j i with hji | hge
  · have hpw := List.pairwise_iff_get.mp (plan_ops_pairwise items cfg) ⟨j, hj⟩ ⟨i, hi⟩ hji
    omega
  · have : i = j := by omega
    subst this
    omega

/-- Witness for C3: a two-item plan touching both a directory and a path
inside it emits the deeper source first. -/
theorem plan_renames_deepest_first_witness :
    is_ancestor_path "p" "p/a" = true ∧ (0 : Nat) < 1 :=
  ⟨by decide,
    plan_renames_deepest_first
      [ScanItem.mk .FILE "p" "repo/p" [] (some "q") [] none "Pending" true [],
       ScanItem.mk .FILE "p/a" "repo/p/a" [] (some "p/b") [] none "Pending" true []]
      ⟨260, false, false⟩ 0 1 (by decide) (by decide) (by decide)⟩

/-! ## C2: the planner never emits a .git-rooted operation -/

theorem git_append_x (s : String) (h : is_git_path s = false) :
    is_git_path (s ++ "_x") = false := by
  simp only [is_git_path, Bool.or_eq_false_iff] at h ⊢
  obtain ⟨h1, h2⟩ := h
  refine ⟨?_, ?_⟩
  · rw [beq_eq_false_iff_ne] at h1 ⊢
    intro heq
    have hdata : s.data ++ ['_', 'x'] = ".git".data := congrArg String.data heq
    have hlast : (s.data ++ ['_', 'x']).getLast? = some 'x' := by
      rw [show s.data ++ ['_', 'x'] = (s.data ++ ['_']) ++ ['x'] by simp]
      exact List.getLast?_concat _
    rw [hdata] at hlast
    exact absurd hlast (by decide)
  · rw [Bool.eq_false_iff] at h2 ⊢
    intro htrue
    have hpre : (['.', 'g', 'i', 't', '/'] : List Char) <+: s.data ++ ['_', 'x'] :=
      List.isPrefixOf_iff_prefix.mp htrue
    have h2' : ¬ ((['.', 'g', 'i', 't', '/'] : List Char) <+: s.data) :=
      fun hp => h2 (List.isPrefixOf_iff_prefix.mpr hp)
    have htake : (['.', 'g', 'i', 't', '/'] : List Char)
        = (s.data ++ ['_', 'x']).take 5 := List.prefix_iff_eq_take.mp hpre
    rcases Nat.lt_or_ge s.data.length 5 with hlen | hlen
    · rcases Nat.lt_or_ge s.data.length 4 with hlen3 | hlen4
      · -- length ≤ 3: the whole appended list is the prefix, but it ends in 'x'
        have hall : (s.data ++ ['_', 'x']).take 5 = s.data ++ ['_', 'x'] :=
          List.take_of_length_le
            (by rw [List.length_append, show (['_', 'x'] : List Char).length = 2 from rfl]; omega)
        rw [hall] at htake
        have hlast : (s.data ++ ['_', 'x']).getLast? = some 'x' := by
          rw [show s.data ++ ['_', 'x'] = (s.data ++ ['_']) ++ ['x'] by simp]
          exact List.getLast?_concat _
        rw [← htake] at hlast
        exact absurd hlast (by decide)
      · -- length = 4: the prefix is s.data ++ ['_'], but it ends in '_'
        have hlen4' : s.data.length = 4 := by omega
        have htake4 : (s.data ++ ['_', 'x']).take 5 = s.data ++ (['_', 'x'].take 1) := by
          rw [show 5 = s.data.length + 1 by omega]
          exact List.take_append 1
        rw [htake4] at htake
        have hlast : (s.data ++ ['_']).getLast? = some '_' := List.getLast?_concat _
        rw [show (['_', 'x'] : List Char).take 1 = ['_'] by decide] at htake
        rw [← htake] at hlast
        exact absurd hlast (by decide)
    · -- length ≥ 5: the prefix already sits inside s.data
      have htake5 : (s.data ++ ['_', 'x']).take 5 = s.data.take 5 :=
        List.take_append_of_le_length hlen
      rw [htake5] at htake
      exact h2' (htake ▸ List.take_prefix 5 s.data)

theorem plan_loop_no_git (disamb : List (String × String)) :
    ∀ (l : List ScanItem) (used : List String) (op : String × String),
      op ∈ (plan_loop disamb l used).1 →
      is_git_path op.1 = false ∧ is_git_path op.2 = false := by
  intro l
  induction l with
  | nil => intro used op h; simp [plan_loop] at h
  | cons it rest ih =>
    intro used op h
    simp only [plan_loop] at h
    split at h
    · exact ih _ op h
    · next hguard =>
      have hng : is_git_path it.rel_path = false ∧
          is_git_path ((lookup_assoc (it.proposed_fix.getD "") disamb).getD
            (it.proposed_fix.getD "")) = false := by
        rw [Bool.or_eq_true] at hguard
        push_neg at hguard
        exact ⟨Bool.eq_false_iff.mpr hguard.1, Bool.eq_false_iff.mpr hguard.2⟩
      rcases List.mem_cons.mp h with rfl | hmem
      · refine ⟨hng.1, ?_⟩
        split
        · exact git_append_x _ hng.2
        · exact hng.2
      · exact ih _ op hmem

/-- C2: `plan_renames` never emits a rename operation whose source or
destination is `.git` or begins with `.git/`; such operations are skipped
(the function is total, so planning never fails on them). -/
theorem plan_renames_never_touches_git (items : List ScanItem) (cfg : ScanConfig)
    (op : String × String) (h : op ∈ (plan_renames items cfg).1) :
    is_git_path op.1 = false ∧ is_git_path op.2 = false := by
  unfold plan_renames at h
  exact plan_loop_no_git _ _ _ op h

/-- Witness for C2: a plan that contains a `.git/`-rooted item emits only the
clean operation. -/
theorem plan_renames_never_touches_git_witness :
    is_git_path "p" = false ∧ is_git_path "q" = false :=
  plan_renames_never_touches_git
    [ScanItem.mk .FILE ".git/config" "repo/.git/config" [] (some "gitcfg") [] none "Pending" true [],
     ScanItem.mk .FILE "p" "repo/p" [] (some "q") [] none "Pending" true []]
    ⟨260, false, false⟩ ("p", "q") (by decide)

/-! ## Association-list lemmas (Python dict model) -/

theorem lookup_update_self {β : Type} (k : String) (v : β) (l : List (String × β)) :
    lookup_assoc k (update_assoc k v l) = some v := by
  induction l with
  | nil => simp [update_assoc, lookup_assoc]
  | cons p r ih =>
    obtain ⟨a, b⟩ := p
    simp only [update_assoc]
    split
    · simp [lookup_assoc]
    · next h => simp only [lookup_assoc, if_neg h, ih]

theorem lookup_update_other {β : Type} (k k' : String) (hk : k' ≠ k) (v : β)
    (l : List (String × β)) :
    lookup_assoc k' (update_assoc k v l) = lookup_assoc k' l := by
  induction l with
  | nil =>
    simp only [update_assoc, lookup_assoc]
    rw [if_neg (Ne.symm hk)]
  | cons p r ih =>
    obtain ⟨a, b⟩ := p
    simp only [update_assoc]
    split
    · next heq =>
      subst heq
      simp only [lookup_assoc, if_neg (Ne.symm hk)]
    · simp only [lookup_assoc, ih]

theorem mem_keys_update {β : Type} (k a : String) (v : β) (l : List (String × β)) :
    a ∈ (update_assoc k v l).map Prod.fst ↔ a = k ∨ a ∈ l.map Prod.fst := by
  induction l with
  | nil => simp [update_assoc]
  | cons p r ih =>
    obtain ⟨x, y⟩ := p
    simp only [update_assoc]
    split
    · next h => subst h; simp [eq_comm]
    · simp only [List.map_cons, List.mem_cons, ih]
      tauto

theorem nodup_keys_update {β : Type} (k : String) (v : β) (l : List (String × β))
    (h : (l.map Prod.fst).Nodup) : ((update_assoc k v l).map Prod.fst).Nodup := by
  induction l with
  | nil => simp [update_assoc]
  | cons p r ih =>
    obtain ⟨a, b⟩ := p
    rw [List.map_cons, List.nodup_cons] at h
    simp only [update_assoc]
    split
    · next heq =>
      subst heq
      simpa [List.nodup_cons] using h
    · next hne =>
      rw [List.map_cons, List.nodup_cons]
      refine ⟨?_, ih h.2⟩
      rw [mem_keys_update]
      rintro (rfl | hmem)
      · exact hne rfl
      · exact h.1 hmem

theorem lookup_assoc_mem {β : Type} (k : String) (v : β) (l : List (String × β))
    (h : lookup_assoc k l = some v) : (k, v) ∈ l := by
  induction l with
  | nil => simp [lookup_assoc] at h
  | cons p r ih =>
    obtain ⟨a, b⟩ := p
    simp only [lookup_assoc] at h
    split at h
    · next heq =>
      injection h with h
      subst heq h
      exact List.mem_cons_self _ _
    · exact List.mem_cons_of_mem _ (ih h)

theorem mem_lookup_assoc {β : Type} (k : String) (v : β) (l : List (String × β))
    (hnd : (l.map Prod.fst).Nodup) (h : (k, v) ∈ l) : lookup_assoc k l = some v := by
  induction l with
  | nil => simp at h
  | cons p r ih =>
    obtain ⟨a, b⟩ := p
    rw [List.map_cons, List.nodup_cons] at hnd
    rcases List.mem_cons.mp h with heq | hmem
    · injection heq with h1 h2
      subst h1
      subst h2
      simp [lookup_assoc]
    · have hak : a ≠ k := by
        rintro rfl
        exact hnd.1 (List.mem_map.mpr ⟨(a, v), hmem, rfl⟩)
      simp only [lookup_assoc, if_neg hak]
      exact ih hnd.2 hmem

/-! ## C7: what the case-insensitive detector reports -/

theorem path_map_lookup (keyf : String → String) :
    ∀ (paths : List String) (acc : List (String × List String)) (k : String),
      lookup_assoc k (path_map_go keyf acc paths) =
        match lookup_assoc k acc with
        | some al => some (al ++ paths.filter (fun p => keyf p == k))
        | none =>
          if paths.filter (fun p => keyf p == k) = [] then none
          else some (paths.filter (fun p => keyf p == k)) := by
  intro paths
  induction paths with
  | nil =>
    intro acc k
    simp only [path_map_go, List.filter_nil]
    cases h : lookup_assoc k acc <;> simp [h]
  | cons p rest ih =>
    intro acc k
    simp only [path_map_go]
    by_cases hk : keyf p = k
    · subst hk
      have hfil : (p :: rest).filter (fun q => keyf q == keyf p)
          = p :: rest.filter (fun q => keyf q == keyf p) := by
        simp [List.filter_cons]
      cases hacc : lookup_assoc (keyf p) acc with
      | some v =>
        simp only [hacc, hfil]
        rw [ih (update_assoc (keyf p) (v ++ [p]) acc) (keyf p)]
        simp only [lookup_update_self]
        simp
      | none =>
        simp only [hacc, hfil]
        rw [ih (update_assoc (keyf p) [p] acc) (keyf p)]
        simp only [lookup_update_self]
        simp
    · have hfil : (p :: rest).filter (fun q => keyf q == k)
          = rest.filter (fun q => keyf q == k) := by
        simp [List.filter_cons, hk]
      rw [hfil]
      cases hacc : lookup_assoc (keyf p) acc with
      | some v =>
        simp only [hacc]
        rw [ih (update_assoc (keyf p) (v ++ [p]) acc) k]
        rw [lookup_update_other (keyf p) k (Ne.symm hk) (v ++ [p]) acc]
      | none =>
        simp only [hacc]
        rw [ih (update_assoc (keyf p) [p] acc) k]
        rw [lookup_update_other (keyf p) k (Ne.symm hk) [p] acc]

theorem path_map_keys_nodup (keyf : String → String) :
    ∀ (paths : List String) (acc : List (String × List String)),
      ((acc.map Prod.fst).Nodup) → (((path_map_go keyf acc paths).map Prod.fst).Nodup) := by
  intro paths
  induction paths with
  | nil => intro acc h; simpa [path_map_go] using h
  | cons p rest ih =>
    intro acc h
    simp only [path_map_go]
    cases hacc : lookup_assoc (keyf p) acc with
    | some v => exact ih _ (nodup_keys_update _ _ _ h)
    | none => exact ih _ (nodup_keys_update _ _ _ h)

/-- C7, amended: the case-insensitive collision detector reports a case-fold
key if and only if at least two entries of the input list — counted with
multiplicity, not as distinct paths — have that case-fold key.  (The original
claim's "two distinct paths" fails on duplicated inputs, see the
counterexample.) -/
theorem detect_case_insensitive_iff (paths : List String) (k : String) :
    (∃ v, (k, v) ∈ detect_collisions_case_insensitive paths) ↔
      2 ≤ paths.countP (fun p => windows_casefold_path p == k) := by
  unfold detect_collisions_case_insensitive
  rw [List.countP_eq_length_filter]
  constructor
  · rintro ⟨v, hv⟩
    have hmem := List.mem_filter.mp hv
    have hnd := path_map_keys_nodup windows_casefold_path paths [] (by simp)
    have hlk := mem_lookup_assoc k v _ hnd hmem.1
    rw [path_map_lookup windows_casefold_path paths [] k] at hlk
    simp only [lookup_assoc] at hlk
    split at hlk
    · exact absurd hlk (by simp)
    · have hv2 : paths.filter (fun p => windows_casefold_path p == k) = v := by
        injection hlk
      have hlen : 1 < v.length := by simpa using hmem.2
      rw [hv2]
      omega
  · intro h2
    have hne : paths.filter (fun p => windows_casefold_path p == k) ≠ [] := by
      intro h0
      rw [h0] at h2
      simp at h2
    have hlk : lookup_assoc k (path_map_go windows_casefold_path [] paths)
        = some (paths.filter (fun p => windows_casefold_path p == k)) := by
      rw [path_map_lookup windows_casefold_path paths [] k]
      simp only [lookup_assoc]
      rw [if_neg hne]
    have hmem := lookup_assoc_mem _ _ _ hlk
    refine ⟨_, List.mem_filter.mpr ⟨hmem, ?_⟩⟩
    simpa using h2

/-! ## C8: disambiguate_targets on pairwise-distinct targets -/

theorem update_assoc_not_mem {β : Type} (k : String) (v : β) (l : List (String × β))
    (h : k ∉ l.map Prod.fst) : update_assoc k v l = l ++ [(k, v)] := by
  induction l with
  | nil => simp [update_assoc]
  | cons p r ih =>
    obtain ⟨a, b⟩ := p
    simp only [List.map_cons, List.mem_cons] at h
    push_neg at h
    simp only [update_assoc, if_neg (Ne.symm h.1), List.cons_append]
    rw [ih h.2]

theorem lookup_assoc_append {β : Type} (k : String) (l1 l2 : List (String × β)) :
    lookup_assoc k (l1 ++ l2) =
      match lookup_assoc k l1 with
      | some v => some v
      | none => lookup_assoc k l2 := by
  induction l1 with
  | nil => simp [lookup_assoc]
  | cons p r ih =>
    obtain ⟨a, b⟩ := p
    simp only [List.cons_append, lookup_assoc]
    split
    · simp
    · exact ih

theorem lookup_assoc_eq_none {β : Type} (k : String) (l : List (String × β))
    (h : k ∉ l.map Prod.fst) : lookup_assoc k l = none := by
  induction l with
  | nil => rfl
  | cons p r ih =>
    obtain ⟨a, b⟩ := p
    simp only [List.map_cons, List.mem_cons] at h
    push_neg at h
    simp only [lookup_assoc, if_neg (Ne.symm h.1)]
    exact ih h.2

/-- The value `disambiguate_targets` assigns to a target `t` that follows the
already-processed prefix `prior`: `t` itself when no earlier target case-folds
to the same key, otherwise the `_n`-suffixed path where `n` is the number of
earlier targets with the same key. -/
def disamb_expected (prior : List String) (t : String) : String :=
  let n := prior.countP (fun u => str_casefold u == str_casefold t)
  if n = 0 then t else collision_suffix t n

theorem disamb_go_spec :
    ∀ (rest done : List String) (out : List (String × String)) (seen : List (String × Nat)),
      (done ++ rest).Nodup →
      out.map Prod.fst = done →
      (∀ (i : Nat) (hi : i < done.length),
        lookup_assoc (done.get ⟨i, hi⟩) out
          = some (disamb_expected (done.take i) (done.get ⟨i, hi⟩))) →
      (∀ k2 : String,
        lookup_assoc k2 seen =
          if done.countP (fun u => str_casefold u == k2) = 0 then none
          else some (done.countP (fun u => str_casefold u == k2) - 1)) →
      ∀ (i : Nat) (hi : i < (done ++ rest).length),
        lookup_assoc ((done ++ rest).get ⟨i, hi⟩) (disamb_go rest out seen)
          = some (disamb_expected ((done ++ rest).take i) ((done ++ rest).get ⟨i, hi⟩)) := by
  intro rest
  induction rest with
  | nil =>
    intro done out seen _ _ hout _ i hi
    simp only [List.append_nil] at hi ⊢
    simpa [disamb_go] using hout i hi
  | cons t rest' ih =>
    intro done out seen hnd hkeys hout hseen
    have hndsplit := List.nodup_append.mp hnd
    have ht_done : t ∉ done := fun hmem =>
      hndsplit.2.2 hmem (List.mem_cons_self _ _)
    have ht_keys : t ∉ out.map Prod.fst := by rw [hkeys]; exact ht_done
    have hnd' : ((done ++ [t]) ++ rest').Nodup := by
      rw [← List.append_cons]
      exact hnd
    have hcnt_succ : ∀ k2, str_casefold t = k2 →
        (done ++ [t]).countP (fun u => str_casefold u == k2)
          = done.countP (fun u => str_casefold u == k2) + 1 := by
      intro k2 hk2
      simp [List.countP_append, List.countP_cons, hk2]
    have hcnt_same : ∀ k2, str_casefold t ≠ k2 →
        (done ++ [t]).countP (fun u => str_casefold u == k2)
          = done.countP (fun u => str_casefold u == k2) := by
      intro k2 hk2
      simp [List.countP_append, List.countP_cons, hk2]
    -- the two branches of the loop body share all the bookkeeping
    have hmain : ∀ (v : String) (n1 : Nat),
        v = disamb_expected done t →
        (∀ k2, lookup_assoc k2 (update_assoc (str_casefold t) n1 seen) =
          if (done ++ [t]).countP (fun u => str_casefold u == k2) = 0 then none
          else some ((done ++ [t]).countP (fun u => str_casefold u == k2) - 1)) →
        ∀ (i : Nat) (hi : i < (done ++ t :: rest').length),
          lookup_assoc ((done ++ t :: rest').get ⟨i, hi⟩)
              (disamb_go rest' (update_assoc t v out) (update_assoc (str_casefold t) n1 seen))
            = some (disamb_expected ((done ++ t :: rest').take i)
                ((done ++ t :: rest').get ⟨i, hi⟩)) := by
      intro v n1 hv hseen'
      have hout_eq : update_assoc t v out = out ++ [(t, v)] := update_assoc_not_mem t v out ht_keys
      have hkeys' : (update_assoc t v out).map Prod.fst = done ++ [t] := by
        rw [hout_eq, List.map_append, hkeys]
        rfl
      have hout' : ∀ (j : Nat) (hj : j < (done ++ [t]).length),
          lookup_assoc ((done ++ [t]).get ⟨j, hj⟩) (update_assoc t v out)
            = some (disamb_expected ((done ++ [t]).take j) ((done ++ [t]).get ⟨j, hj⟩)) := by
        intro j hj
        have hj2 : j < done.length + 1 := by simpa using hj
        rcases Nat.lt_or_ge j done.length with hjlt | hjge
        · have hget : (done ++ [t]).get ⟨j, hj⟩ = done.get ⟨j, hjlt⟩ := by
            simp only [List.get_eq_getElem]
            exact List.getElem_append_left hjlt
          have htake : (done ++ [t]).take j = done.take j :=
            List.take_append_of_le_length (Nat.le_of_lt hjlt)
          rw [hget, htake, hout_eq, lookup_assoc_append]
          rw [hout j hjlt]
        · have hj_eq : j = done.length := by omega
          subst hj_eq
          have hget : (done ++ [t]).get ⟨done.length, hj⟩ = t := by
            simp only [List.get_eq_getElem]
            rw [List.getElem_append_right (Nat.le_refl _)]
            simp
          have htake : (done ++ [t]).take done.length = done := by
            rw [List.take_append_of_le_length (Nat.le_refl _), List.take_length]
          rw [hget, htake, hout_eq, lookup_assoc_append,
            lookup_assoc_eq_none t out ht_keys]
          simp [lookup_assoc, hv]
      have hgoal := ih (done ++ [t]) (update_assoc t v out)
        (update_assoc (str_casefold t) n1 seen) hnd' hkeys' hout' hseen'
      have he : done ++ t :: rest' = (done ++ [t]) ++ rest' := by
        rw [List.append_cons]
      exact he ▸ hgoal
    simp only [disamb_go]
    cases hs : lookup_assoc (str_casefold t) seen with
    | none =>
      have hcnt0 : done.countP (fun u => str_casefold u == str_casefold t) = 0 := by
        have := hseen (str_casefold t)
        rw [hs] at this
        by_contra hne
        rw [if_neg hne] at this
        exact Option.noConfusion this
      apply hmain t 0
      · simp [disamb_expected, hcnt0]
      · intro k2
        by_cases hk2 : str_casefold t = k2
        · subst hk2
          rw [lookup_update_self, hcnt_succ _ rfl, hcnt0]
          simp
        · rw [lookup_update_other _ _ (Ne.symm hk2), hcnt_same _ hk2]
          exact hseen k2
    | some n0 =>
      have hcnt : done.countP (fun u => str_casefold u == str_casefold t) = n0 + 1 := by
        have := hseen (str_casefold t)
        rw [hs] at this
        by_cases hz : done.countP (fun u => str_casefold u == str_casefold t) = 0
        · rw [if_pos hz] at this
          exact Option.noConfusion this
        · rw [if_neg hz] at this
          injection this with h0
          omega
      apply hmain (collision_suffix t (n0 + 1)) (n0 + 1)
      · simp [disamb_expected, hcnt]
      · intro k2
        by_cases hk2 : str_casefold t = k2
        · subst hk2
          rw [lookup_update_self, hcnt_succ _ rfl, hcnt]
          simp
        · rw [lookup_update_other _ _ (Ne.symm hk2), hcnt_same _ hk2]
          exact hseen k2

/-- C8, amended: for a list of *pairwise-distinct* target strings (duplicated
targets overwrite each other's dict entry, see the counterexample),
`disambiguate_targets` maps a target to itself when it is the first with its
case-fold key, and maps the (n+1)-st target with a given key to the path with
`_n` inserted before the extension (appended when there is none); on
`["A.txt", "a.TXT", "b.txt"]` the first two map to different outputs (one
preserved, one suffixed) and `"b.txt"` maps to itself. -/
theorem disambiguate_targets_of_nodup (targets : List String) (hnd : targets.Nodup)
    (i : Nat) (hi : i < targets.length) :
    lookup_assoc (targets.get ⟨i, hi⟩) (disambiguate_targets targets)
      = some (disamb_expected (targets.take i) (targets.get ⟨i, hi⟩)) := by
  have h := disamb_go_spec targets [] [] []
    (by simpa using hnd) rfl (by intro j hj; simp at hj) (by intro k2; simp [lookup_assoc])
  simp only [List.nil_append] at h
  exact h i hi

/-- Witness for C8: the amended theorem applied at the spec's example list
`["A.txt", "a.TXT", "b.txt"]`. -/
theorem disambiguate_targets_of_nodup_witness :
    lookup_assoc "A.txt" (disambiguate_targets ["A.txt", "a.TXT", "b.txt"]) = some "A.txt" ∧
    lookup_assoc "a.TXT" (disambiguate_targets ["A.txt", "a.TXT", "b.txt"]) = some "a_1.TXT" ∧
    lookup_assoc "b.txt" (disambiguate_targets ["A.txt", "a.TXT", "b.txt"]) = some "b.txt" ∧
    ("A.txt" : String) ≠ "a_1.TXT" := by
  refine ⟨?_, ?_, ?_, by decide⟩
  · exact (disambiguate_targets_of_nodup ["A.txt", "a.TXT", "b.txt"] (by decide) 0
      (by decide)).trans (by decide)
  · exact (disambiguate_targets_of_nodup ["A.txt", "a.TXT", "b.txt"] (by decide) 1
      (by decide)).trans (by decide)
  · exact (disambiguate_targets_of_nodup ["A.txt", "a.TXT", "b.txt"] (by decide) 2
      (by decide)).trans (by decide)

/-! ## C4 infrastructure: the substitution pass -/

theorem replaceChar_of_not_mem (a : Char) (repl : List Char) (l : List Char) (h : a ∉ l) :
    replaceChar a repl l = l := by
  induction l with
  | nil => rfl
  | cons c r ih =>
    simp only [List.mem_cons] at h
    push_neg at h
    simp only [replaceChar, if_neg (Ne.symm h.1), ih h.2, List.singleton_append]

theorem replaceChar_not_mem_self (a : Char) (repl : List Char) (l : List Char)
    (h : a ∉ repl) : a ∉ replaceChar a repl l := by
  induction l with
  | nil => simp [replaceChar]
  | cons c r ih =>
    simp only [replaceChar, List.mem_append]
    rintro (hmem | hmem)
    · split at hmem
      · exact h hmem
      · next hne =>
        simp only [List.mem_singleton] at hmem
        exact hne hmem.symm
    · exact ih hmem

theorem replaceChar_not_mem_other (a b : Char) (repl : List Char) (l : List Char)
    (hl : b ∉ l) (hr : b ∉ repl) : b ∉ replaceChar a repl l := by
  induction l with
  | nil => simp [replaceChar]
  | cons c r ih =>
    simp only [List.mem_cons] at hl
    push_neg at hl
    simp only [replaceChar, List.mem_append]
    rintro (hmem | hmem)
    · split at hmem
      · exact hr hmem
      · simp only [List.mem_singleton] at hmem
        exact hl.1 hmem
    · exact ih hl.2 hmem

theorem subst_pass_fst (entries : List (Char × List Char × String)) :
    ∀ (out : List Char) (chs : List String),
      (subst_pass entries (out, chs)).1
        = entries.foldl (fun acc e => replaceChar e.1 e.2.1 acc) out := by
  induction entries with
  | nil => intro out chs; rfl
  | cons e rest ih =>
    intro out chs
    obtain ⟨ch, repl, note⟩ := e
    simp only [subst_pass, List.foldl_cons]
    by_cases hmem : ch ∈ out
    · rw [if_pos hmem]
      by_cases hne : replaceChar ch repl out ≠ out
      · rw [if_pos hne]
        exact ih _ _
      · rw [if_neg hne]
        push_neg at hne
        rw [hne]
        exact ih _ _
    · rw [if_neg hmem, replaceChar_of_not_mem ch repl out hmem]
      exact ih _ _

theorem subst_pass_notes (entries : List (Char × List Char × String)) :
    ∀ (out : List Char) (chs : List String),
      ∃ extra, (subst_pass entries (out, chs)).2 = chs ++ extra ∧
        (extra = [] → (subst_pass entries (out, chs)).1 = out) := by
  induction entries with
  | nil => intro out chs; exact ⟨[], by simp [subst_pass], fun _ => rfl⟩
  | cons e rest ih =>
    intro out chs
    obtain ⟨ch, repl, note⟩ := e
    simp only [subst_pass]
    by_cases hmem : ch ∈ out
    · rw [if_pos hmem]
      by_cases hne : replaceChar ch repl out ≠ out
      · rw [if_pos hne]
        obtain ⟨extra, he, _⟩ := ih (replaceChar ch repl out) (chs ++ [note])
        refine ⟨[note] ++ extra, by simpa using he, ?_⟩
        intro h0
        exact absurd h0 (by simp)
      · rw [if_neg hne]
        exact ih out chs
    · rw [if_neg hmem]
      exact ih out chs

theorem subst_pass_clean_id (entries : List (Char × List Char × String))
    (out : List Char) (chs : List String) (h : ∀ e ∈ entries, e.1 ∉ out) :
    subst_pass entries (out, chs) = (out, chs) := by
  induction entries with
  | nil => rfl
  | cons e rest ih =>
    obtain ⟨ch, repl, note⟩ := e
    simp only [subst_pass]
    rw [if_neg (h _ (List.mem_cons_self _ _))]
    exact ih (fun e he => h e (List.mem_cons_of_mem _ he))

theorem subst_step_clean (l : List Char) :
    ∀ c ∈ FORBIDDEN_CHARS, c ∉ subst_step l := by
  intro c hc
  fin_cases hc <;>
    · simp only [subst_step, SUBSTITUTIONS, List.foldl_cons, List.foldl_nil]
      repeat
        first
        | exact replaceChar_not_mem_self _ _ _ (by decide)
        | refine replaceChar_not_mem_other _ _ _ _ ?_ (by decide)

/-! ## C4 infrastructure: space collapsing, NFC model, trailing strip -/

theorem mc_cons_cons (a b : Char) (r : List Char) :
    multispace_collapse (a :: b :: r)
      = if a = ' ' ∧ b = ' ' then multispace_collapse (b :: r)
        else a :: multispace_collapse (b :: r) := rfl

theorem mem_multispace_collapse : ∀ (l : List Char) (c : Char),
    c ∈ multispace_collapse l → c ∈ l := by
  intro l
  induction l with
  | nil => intro c hc; simp [multispace_collapse] at hc
  | cons a t ih =>
    intro c hc
    cases t with
    | nil => simpa [multispace_collapse] using hc
    | cons b r =>
      rw [mc_cons_cons] at hc
      split at hc
      · exact List.mem_cons_of_mem _ (ih c hc)
      · rcases List.mem_cons.mp hc with rfl | hmem
        · exact List.mem_cons_self _ _
        · exact List.mem_cons_of_mem _ (ih c hmem)

theorem multispace_collapse_ne_nil : ∀ (l : List Char), l ≠ [] → multispace_collapse l ≠ [] := by
  intro l
  induction l with
  | nil => intro h; exact absurd rfl h
  | cons a t ih =>
    intro _
    cases t with
    | nil => simp [multispace_collapse]
    | cons b r =>
      rw [mc_cons_cons]
      split
      · exact ih (by simp)
      · simp

theorem getLast?_multispace_collapse : ∀ (l : List Char),
    (multispace_collapse l).getLast? = l.getLast? := by
  intro l
  induction l with
  | nil => rfl
  | cons a t ih =>
    cases t with
    | nil => rfl
    | cons b r =>
      rw [mc_cons_cons]
      split
      · rw [ih, List.getLast?_cons_cons]
      · rcases hmc : multispace_collapse (b :: r) with _ | ⟨y, ys⟩
        · exact absurd hmc (multispace_collapse_ne_nil _ (by simp))
        · rw [List.getLast?_cons_cons, ← hmc, ih, List.getLast?_cons_cons]

theorem length_multispace_le : ∀ (l : List Char),
    (multispace_collapse l).length ≤ l.length := by
  intro l
  induction l with
  | nil => simp [multispace_collapse]
  | cons a t ih =>
    cases t with
    | nil => simp [multispace_collapse]
    | cons b r =>
      rw [mc_cons_cons]
      split
      · calc (multispace_collapse (b :: r)).length ≤ (b :: r).length := ih
          _ ≤ (a :: b :: r).length := by simp
      · simpa using ih

theorem length_multispace_lt : ∀ (l : List Char), multispace_collapse l ≠ l →
    (multispace_collapse l).length < l.length := by
  intro l
  induction l with
  | nil => intro h; exact absurd rfl h
  | cons a t ih =>
    intro h
    cases t with
    | nil => exact absurd rfl h
    | cons b r =>
      rw [mc_cons_cons] at h ⊢
      split
      · have := length_multispace_le (b :: r)
        simp only [List.length_cons] at this ⊢
        omega
      · next hcond =>
        have hne : multispace_collapse (b :: r) ≠ b :: r := by
          intro heq
          rw [if_neg hcond, heq] at h
          exact h rfl
        have := ih hne
        simp only [List.length_cons] at this ⊢
        omega

theorem count_multispace (c : Char) (hc : c ≠ ' ') : ∀ (l : List Char),
    (multispace_collapse l).count c = l.count c := by
  intro l
  induction l with
  | nil => rfl
  | cons a t ih =>
    cases t with
    | nil => rfl
    | cons b r =>
      rw [mc_cons_cons]
      split
      · next hcond =>
        rw [ih]
        have ha : a = ' ' := hcond.1
        subst ha
        simp [List.count_cons, Ne.symm hc]
      · simp only [List.count_cons]
        rw [ih]
        simp only [List.count_cons]

/-- The precomposed characters the NFC model can produce. -/
def nfc_outputs : List Char := [Char.ofNat 0xE9, Char.ofNat 0xE1, Char.ofNat 0xF3]

theorem nfcCompose_chars {a b x : Char} (h : nfcCompose a b = some x) :
    a ≠ '_' ∧ b ≠ '_' ∧ x ∈ nfc_outputs := by
  unfold nfcCompose at h
  split_ifs at h with h1 h2 h3 <;> injection h with hx
  · exact ⟨by rw [h1.1]; decide, by rw [h1.2]; decide, by rw [← hx]; decide⟩
  · exact ⟨by rw [h2.1]; decide, by rw [h2.2]; decide, by rw [← hx]; decide⟩
  · exact ⟨by rw [h3.1]; decide, by rw [h3.2]; decide, by rw [← hx]; decide⟩

theorem mem_nfcGo : ∀ (fuel : Nat) (l : List Char) (c : Char),
    c ∈ nfcGo fuel l → c ∈ l ∨ c ∈ nfc_outputs := by
  intro fuel
  induction fuel with
  | zero => intro l c hc; exact Or.inl hc
  | succ n ih =>
    intro l c hc
    match l with
    | [] => exact Or.inl hc
    | [a] => exact Or.inl hc
    | a :: b :: r =>
      simp only [nfcGo] at hc
      cases hcomp : nfcCompose a b with
      | some c0 =>
        rw [hcomp] at hc
        rcases ih (c0 :: r) c hc with hmem | hout
        · rcases List.mem_cons.mp hmem with rfl | hr
          · exact Or.inr (nfcCompose_chars hcomp).2.2
          · exact Or.inl (by simp [hr])
        · exact Or.inr hout
      | none =>
        rw [hcomp] at hc
        rcases List.mem_cons.mp hc with rfl | hmem
        · exact Or.inl (List.mem_cons_self _ _)
        · rcases ih (b :: r) c hmem with hmem2 | hout
          · exact Or.inl (List.mem_cons_of_mem _ hmem2)
          · exact Or.inr hout

theorem nfcGo_ne_nil : ∀ (fuel : Nat) (l : List Char), l ≠ [] → nfcGo fuel l ≠ [] := by
  intro fuel
  induction fuel with
  | zero => intro l h; exact h
  | succ n ih =>
    intro l h
    match l with
    | [a] => simp [nfcGo]
    | a :: b :: r =>
      simp only [nfcGo]
      cases hcomp : nfcCompose a b with
      | some c0 => exact ih (c0 :: r) (by simp)
      | none => simp

theorem length_nfcGo_le : ∀ (fuel : Nat) (l : List Char),
    (nfcGo fuel l).length ≤ l.length := by
  intro fuel
  induction fuel with
  | zero => intro l; exact Nat.le_refl _
  | succ n ih =>
    intro l
    match l with
    | [] => simp [nfcGo]
    | [a] => simp [nfcGo]
    | a :: b :: r =>
      simp only [nfcGo]
      cases hcomp : nfcCompose a b with
      | some c0 =>
        have := ih (c0 :: r)
        simp at this ⊢
        omega
      | none =>
        have := ih (b :: r)
        simp at this ⊢
        omega

theorem count_nfcGo_underscore : ∀ (fuel : Nat) (l : List Char),
    (nfcGo fuel l).count '_' = l.count '_' := by
  intro fuel
  induction fuel with
  | zero => intro l; rfl
  | succ n ih =>
    intro l
    match l with
    | [] => rfl
    | [a] => rfl
    | a :: b :: r =>
      simp only [nfcGo]
      cases hcomp : nfcCompose a b with
      | some c0 =>
        obtain ⟨ha, hb, hc0⟩ := nfcCompose_chars hcomp
        have hc0ne : c0 ≠ '_' := by
          intro heq
          rw [heq] at hc0
          exact absurd hc0 (by decide)
        rw [ih (c0 :: r)]
        simp [List.count_cons, hc0ne, ha, hb]
      | none =>
        simp only [List.count_cons]
        rw [ih (b :: r)]
        simp [List.count_cons]

theorem nfcGo_trailing : ∀ (fuel : Nat) (l : List Char),
    has_trailing_space_or_period (nfcGo fuel l) = true →
      has_trailing_space_or_period l = true := by
  intro fuel
  induction fuel with
  | zero => intro l h; exact h
  | succ n ih =>
    intro l h
    match l with
    | [] => exact h
    | [a] => exact h
    | a :: b :: r =>
      simp only [nfcGo] at h
      cases hcomp : nfcCompose a b with
      | some c0 =>
        rw [hcomp] at h
        have h2 := ih (c0 :: r) h
        cases r with
        | nil =>
          obtain ⟨_, _, hc0⟩ := nfcCompose_chars hcomp
          simp only [has_trailing_space_or_period, List.getLast?_singleton] at h2
          have : ¬ trailSP c0 = true := by
            fin_cases hc0 <;> decide
          exact absurd h2 this
        | cons y ys =>
          simp only [has_trailing_space_or_period, List.getLast?_cons_cons] at h2 ⊢
          exact h2
      | none =>
        rw [hcomp] at h
        rcases hnfc : nfcGo n (b :: r) with _ | ⟨z, zs⟩
        · exact absurd hnfc (nfcGo_ne_nil n (b :: r) (by simp))
        · rw [hnfc] at h
          simp only [has_trailing_space_or_period, List.getLast?_cons_cons] at h ⊢
          rw [← hnfc] at h
          exact ih (b :: r) h

/-! ## C4 infrastructure: right-strip of spaces and periods -/

theorem mem_rstripSP (l : List Char) (c : Char) (h : c ∈ rstripSP l) : c ∈ l := by
  simp only [rstripSP, List.mem_reverse] at h
  have := (List.dropWhile_sublist trailSP).mem h
  simpa using this

theorem dropWhile_head_false {α : Type} (p : α → Bool) :
    ∀ (l : List α) (c : α), (l.dropWhile p).head? = some c → p c = false := by
  intro l
  induction l with
  | nil => intro c h; simp [List.dropWhile] at h
  | cons a r ih =>
    intro c h
    by_cases hp : p a = true
    · rw [List.dropWhile_cons_of_pos hp] at h
      exact ih c h
    · rw [List.dropWhile_cons_of_neg hp] at h
      injection h with h
      subst h
      exact Bool.eq_false_iff.mpr hp

theorem has_trailing_rstripSP (l : List Char) :
    has_trailing_space_or_period (rstripSP l) = false := by
  unfold rstripSP has_trailing_space_or_period
  rw [List.getLast?_reverse]
  cases hh : (l.reverse.dropWhile trailSP).head? with
  | none => rfl
  | some c => exact dropWhile_head_false trailSP l.reverse c hh

theorem rstripSP_eq_self (l : List Char) (h : has_trailing_space_or_period l = false) :
    rstripSP l = l := by
  unfold rstripSP
  cases hrev : l.reverse with
  | nil =>
    have : l = [] := by simpa using congrArg List.reverse hrev
    simp [this]
  | cons c rest =>
    have hlast : l.getLast? = some c := by
      rw [← List.head?_reverse, hrev]
      rfl
    have hc : trailSP c = false := by
      unfold has_trailing_space_or_period at h
      rw [hlast] at h
      exact h
    rw [List.dropWhile_cons_of_neg (by rw [hc]; simp), ← hrev, List.reverse_reverse]

theorem has_trailing_append_underscore (l : List Char) :
    has_trailing_space_or_period (l ++ ['_']) = false := by
  unfold has_trailing_space_or_period
  rw [List.getLast?_concat]
  rfl

/-! ## C4 infrastructure: per-stage value and note lemmas -/

theorem hasCtrl_false_iff (l : List Char) :
    hasCtrl l = false ↔ ∀ c ∈ l, isCtrl c = false := by
  simp [hasCtrl, List.any_eq_true]

theorem hasCtrl_ctrlFilter (l : List Char) : hasCtrl (ctrlFilter l) = false := by
  rw [hasCtrl_false_iff]
  intro c hc
  have := List.of_mem_filter hc
  simpa using this

theorem ctrlFilter_eq_self (l : List Char) (h : hasCtrl l = false) : ctrlFilter l = l := by
  rw [hasCtrl_false_iff] at h
  exact List.filter_eq_self.mpr (fun a ha => by simp [h a ha])

theorem ctrl_stage_fst (p : List Char × List String) : (ctrl_stage p).1 = ctrl_step p.1 := by
  unfold ctrl_stage ctrl_step
  split
  · dsimp only
    split
    · rfl
    · next h =>
      push_neg at h
      exact h.symm
  · next h =>
    exact (ctrlFilter_eq_self p.1 (Bool.not_eq_true _ ▸ h)).symm

theorem ctrl_stage_notes (p : List Char × List String) :
    ∃ extra, (ctrl_stage p).2 = p.2 ++ extra ∧ (extra = [] → (ctrl_stage p).1 = p.1) := by
  unfold ctrl_stage
  split
  · dsimp only
    split
    · exact ⟨["Remove control chars (0-31)"], rfl, fun h => absurd h (by simp)⟩
    · exact ⟨[], by simp, fun _ => rfl⟩
  · exact ⟨[], by simp, fun _ => rfl⟩

theorem ctrl_stage_id (p : List Char × List String) (h : hasCtrl p.1 = false) :
    ctrl_stage p = p := by
  unfold ctrl_stage
  rw [if_neg (by simp [h])]

theorem trim_stage_fst (p : List Char × List String) : (trim_stage p).1 = trim_step p.1 := by
  unfold trim_stage trim_step
  split
  · dsimp only
    split
    · rfl
    · next h =>
      push_neg at h
      exact h.symm
  · next h =>
    exact (rstripSP_eq_self p.1 (Bool.not_eq_true _ ▸ h)).symm

theorem trim_stage_notes (p : List Char × List String) :
    ∃ extra, (trim_stage p).2 = p.2 ++ extra ∧ (extra = [] → (trim_stage p).1 = p.1) := by
  unfold trim_stage
  split
  · dsimp only
    split
    · exact ⟨["Trim trailing spaces/periods"], rfl, fun h => absurd h (by simp)⟩
    · exact ⟨[], by simp, fun _ => rfl⟩
  · exact ⟨[], by simp, fun _ => rfl⟩

theorem trim_stage_id (p : List Char × List String)
    (h : has_trailing_space_or_period p.1 = false) : trim_stage p = p := by
  unfold trim_stage
  rw [if_neg (by simp [h])]

theorem device_stage_fst (p : List Char × List String) :
    (device_stage p).1 = device_step p.1 := by
  unfold device_stage device_step
  split <;> rfl

theorem device_stage_notes (p : List Char × List String) :
    ∃ extra, (device_stage p).2 = p.2 ++ extra ∧ (extra = [] → (device_stage p).1 = p.1) := by
  unfold device_stage
  split
  · exact ⟨["Append _ to reserved device name"], rfl, fun h => absurd h (by simp)⟩
  · exact ⟨[], by simp, fun _ => rfl⟩

theorem device_stage_id (p : List Char × List String) (h : is_reserved_device p.1 = false) :
    device_stage p = p := by
  unfold device_stage
  rw [if_neg (by simp [h])]

theorem space_stage_fst (cfg : ScanConfig) (p : List Char × List String) :
    (space_stage cfg p).1 = space_step cfg p.1 := by
  unfold space_stage space_step
  split
  · dsimp only
    split
    · rfl
    · next h =>
      push_neg at h
      exact h.symm
  · rfl

theorem space_stage_notes (cfg : ScanConfig) (p : List Char × List String) :
    ∃ extra, (space_stage cfg p).2 = p.2 ++ extra ∧ (extra = [] → (space_stage cfg p).1 = p.1) := by
  unfold space_stage
  split
  · dsimp only
    split
    · exact ⟨["Collapse multiple spaces"], rfl, fun h => absurd h (by simp)⟩
    · exact ⟨[], by simp, fun _ => rfl⟩
  · exact ⟨[], by simp, fun _ => rfl⟩

theorem space_stage_id_disabled (cfg : ScanConfig) (p : List Char × List String)
    (h : cfg.collapse_spaces = false) : space_stage cfg p = p := by
  unfold space_stage
  rw [if_neg (by simp [h])]

theorem space_stage_id_eq (cfg : ScanConfig) (p : List Char × List String)
    (h : multispace_collapse p.1 = p.1) : space_stage cfg p = p := by
  unfold space_stage
  split
  · rw [if_neg (by simp [h])]
  · rfl

theorem nfc_stage_fst (cfg : ScanConfig) (p : List Char × List String) :
    (nfc_stage cfg p).1 = nfc_step cfg p.1 := by
  unfold nfc_stage nfc_step
  split
  · dsimp only
    split
    · rfl
    · next h =>
      push_neg at h
      exact h.symm
  · rfl

theorem nfc_stage_notes (cfg : ScanConfig) (p : List Char × List String) :
    ∃ extra, (nfc_stage cfg p).2 = p.2 ++ extra ∧ (extra = [] → (nfc_stage cfg p).1 = p.1) := by
  unfold nfc_stage
  split
  · dsimp only
    split
    · exact ⟨["Normalize Unicode to NFC"], rfl, fun h => absurd h (by simp)⟩
    · exact ⟨[], by simp, fun _ => rfl⟩
  · exact ⟨[], by simp, fun _ => rfl⟩

theorem nfc_stage_id_disabled (cfg : ScanConfig) (p : List Char × List String)
    (h : cfg.normalize_unicode_nfc = false) : nfc_stage cfg p = p := by
  unfold nfc_stage
  rw [if_neg (by simp [h])]

theorem nfc_stage_id_eq (cfg : ScanConfig) (p : List Char × List String)
    (h : nfcChars p.1 = p.1) : nfc_stage cfg p = p := by
  unfold nfc_stage
  split
  · rw [if_neg (by simp [h])]
  · rfl

/-! ## C4 infrastructure: the staged states of fix_segment -/

def fs_p1 (seg : String) : List Char × List String := subst_pass SUBSTITUTIONS (seg.data, [])

def fs_p2 (seg : String) : List Char × List String := ctrl_stage (fs_p1 seg)

def fs_p3 (seg : String) : List Char × List String := trim_stage (fs_p2 seg)

def fs_p4 (seg : String) : List Char × List String := device_stage (fs_p3 seg)

def fs_p5 (cfg : ScanConfig) (seg : String) : List Char × List String :=
  space_stage cfg (fs_p4 seg)

def fs_p6 (cfg : ScanConfig) (seg : String) : List Char × List String :=
  nfc_stage cfg (fs_p5 cfg seg)

theorem fix_segment_eq (seg : String) (cfg : ScanConfig) :
    fix_segment seg cfg = ⟨seg, ⟨(fs_p6 cfg seg).1⟩, (fs_p6 cfg seg).2⟩ := rfl

theorem fs_p6_fst (cfg : ScanConfig) (seg : String) :
    (fs_p6 cfg seg).1
      = nfc_step cfg (space_step cfg (device_step (trim_step (ctrl_step (subst_step seg.data))))) := by
  unfold fs_p6 fs_p5 fs_p4 fs_p3 fs_p2
  rw [nfc_stage_fst, space_stage_fst, device_stage_fst, trim_stage_fst, ctrl_stage_fst]
  rw [show (fs_p1 seg).1 = subst_step seg.data from subst_pass_fst SUBSTITUTIONS seg.data []]

/-! ## C4 infrastructure: propagation of invariants through the steps -/

theorem not_mem_ctrl_step {c : Char} {l : List Char} (h : c ∉ l) : c ∉ ctrl_step l :=
  fun hm => h (List.mem_of_mem_filter hm)

theorem not_mem_trim_step {c : Char} {l : List Char} (h : c ∉ l) : c ∉ trim_step l :=
  fun hm => h (mem_rstripSP l c hm)

theorem not_mem_device_step {c : Char} {l : List Char} (h : c ∉ l) (hc : c ≠ '_') :
    c ∉ device_step l := by
  unfold device_step
  split
  · intro hm
    rcases List.mem_append.mp hm with h1 | h1
    · exact h h1
    · simp only [List.mem_singleton] at h1
      exact hc h1
  · exact h

theorem not_mem_space_step {c : Char} {cfg : ScanConfig} {l : List Char} (h : c ∉ l) :
    c ∉ space_step cfg l := by
  unfold space_step
  split
  · exact fun hm => h (mem_multispace_collapse l c hm)
  · exact h

theorem not_mem_nfc_step {c : Char} {cfg : ScanConfig} {l : List Char} (h : c ∉ l)
    (ho : c ∉ nfc_outputs) : c ∉ nfc_step cfg l := by
  unfold nfc_step nfcChars
  split
  · intro hm
    rcases mem_nfcGo _ _ c hm with h1 | h1
    · exact h h1
    · exact ho h1
  · exact h

theorem hasCtrl_false_mono {l m : List Char} (hsub : ∀ c ∈ m, c ∈ l)
    (h : hasCtrl l = false) : hasCtrl m = false := by
  rw [hasCtrl_false_iff] at h ⊢
  exact fun c hc => h c (hsub c hc)

theorem hasCtrl_trim_step {l : List Char} (h : hasCtrl l = false) :
    hasCtrl (trim_step l) = false :=
  hasCtrl_false_mono (fun c hc => mem_rstripSP l c hc) h

theorem hasCtrl_device_step {l : List Char} (h : hasCtrl l = false) :
    hasCtrl (device_step l) = false := by
  unfold device_step
  split
  · rw [hasCtrl_false_iff] at h ⊢
    intro c hc
    rcases List.mem_append.mp hc with h1 | h1
    · exact h c h1
    · simp only [List.mem_singleton] at h1
      subst h1
      decide
  · exact h

theorem hasCtrl_space_step {cfg : ScanConfig} {l : List Char} (h : hasCtrl l = false) :
    hasCtrl (space_step cfg l) = false := by
  unfold space_step
  split
  · exact hasCtrl_false_mono (fun c hc => mem_multispace_collapse l c hc) h
  · exact h

theorem hasCtrl_nfc_step {cfg : ScanConfig} {l : List Char} (h : hasCtrl l = false) :
    hasCtrl (nfc_step cfg l) = false := by
  unfold nfc_step nfcChars
  split
  · rw [hasCtrl_false_iff] at h ⊢
    intro c hc
    rcases mem_nfcGo _ _ c hc with h1 | h1
    · exact h c h1
    · fin_cases h1 <;> decide
  · exact h

theorem trailing_device_step {l : List Char} (h : has_trailing_space_or_period l = false) :
    has_trailing_space_or_period (device_step l) = false := by
  unfold device_step
  split
  · exact has_trailing_append_underscore l
  · exact h

theorem trailing_space_step {cfg : ScanConfig} {l : List Char}
    (h : has_trailing_space_or_period l = false) :
    has_trailing_space_or_period (space_step cfg l) = false := by
  unfold space_step
  split
  · unfold has_trailing_space_or_period
    rw [getLast?_multispace_collapse]
    exact h
  · exact h

theorem trailing_nfc_step {cfg : ScanConfig} {l : List Char}
    (h : has_trailing_space_or_period l = false) :
    has_trailing_space_or_period (nfc_step cfg l) = false := by
  unfold nfc_step nfcChars
  split
  · cases htr : has_trailing_space_or_period (nfcGo l.length l) with
    | false => rfl
    | true =>
      rw [nfcGo_trailing _ _ htr] at h
      exact Bool.noConfusion h
  · exact h

theorem count_underscore_space_step (cfg : ScanConfig) (l : List Char) :
    (space_step cfg l).count '_' = l.count '_' := by
  unfold space_step
  split
  · exact count_multispace '_' (by decide) l
  · rfl

theorem count_underscore_nfc_step (cfg : ScanConfig) (l : List Char) :
    (nfc_step cfg l).count '_' = l.count '_' := by
  unfold nfc_step nfcChars
  split
  · exact count_nfcGo_underscore _ l
  · rfl

theorem length_nfc_step_le (cfg : ScanConfig) (l : List Char) :
    (nfc_step cfg l).length ≤ l.length := by
  unfold nfc_step nfcChars
  split
  · exact length_nfcGo_le _ l
  · exact Nat.le_refl _

theorem underscore_not_forbidden : ∀ c ∈ FORBIDDEN_CHARS, c ≠ '_' := by decide

theorem forbidden_not_nfc_output : ∀ c ∈ FORBIDDEN_CHARS, c ∉ nfc_outputs := by decide

theorem subs_fst_forbidden : ∀ e ∈ SUBSTITUTIONS, e.1 ∈ FORBIDDEN_CHARS := by decide

/-! ## C4: the six-step pipeline and the emptiness of the note list -/

theorem fix_segment_changes (seg : String) (cfg : ScanConfig) :
    (fix_segment seg cfg).changes = (fs_p6 cfg seg).2 := rfl

theorem fix_segment_fixed_eq (seg : String) (cfg : ScanConfig) :
    (fix_segment seg cfg).fixed = ⟨(fs_p6 cfg seg).1⟩ := rfl

/-- The stage values of `fix_segment`. -/
theorem fs_fst_eqs (seg : String) (cfg : ScanConfig) :
    (fs_p1 seg).1 = subst_step seg.data ∧
    (fs_p2 seg).1 = ctrl_step (fs_p1 seg).1 ∧
    (fs_p3 seg).1 = trim_step (fs_p2 seg).1 ∧
    (fs_p4 seg).1 = device_step (fs_p3 seg).1 ∧
    (fs_p5 cfg seg).1 = space_step cfg (fs_p4 seg).1 ∧
    (fs_p6 cfg seg).1 = nfc_step cfg (fs_p5 cfg seg).1 :=
  ⟨subst_pass_fst SUBSTITUTIONS seg.data [], ctrl_stage_fst _, trim_stage_fst _,
    device_stage_fst _, space_stage_fst cfg _, nfc_stage_fst cfg _⟩

/-- Forward direction: an empty note list means the segment was unchanged. -/
theorem fs_p6_changes_nil (cfg : ScanConfig) (seg : String)
    (hch : (fs_p6 cfg seg).2 = []) : (fs_p6 cfg seg).1 = seg.data := by
  unfold fs_p6 at hch ⊢
  obtain ⟨e6, he6, hi6⟩ := nfc_stage_notes cfg (fs_p5 cfg seg)
  rw [he6] at hch
  obtain ⟨h5, h6⟩ := List.append_eq_nil.mp hch
  rw [hi6 h6]
  unfold fs_p5 at h5 ⊢
  obtain ⟨e5, he5, hi5⟩ := space_stage_notes cfg (fs_p4 seg)
  rw [he5] at h5
  obtain ⟨h4, h5e⟩ := List.append_eq_nil.mp h5
  rw [hi5 h5e]
  unfold fs_p4 at h4 ⊢
  obtain ⟨e4, he4, hi4⟩ := device_stage_notes (fs_p3 seg)
  rw [he4] at h4
  obtain ⟨h3, h4e⟩ := List.append_eq_nil.mp h4
  rw [hi4 h4e]
  unfold fs_p3 at h3 ⊢
  obtain ⟨e3, he3, hi3⟩ := trim_stage_notes (fs_p2 seg)
  rw [he3] at h3
  obtain ⟨h2, h3e⟩ := List.append_eq_nil.mp h3
  rw [hi3 h3e]
  unfold fs_p2 at h2 ⊢
  obtain ⟨e2, he2, hi2⟩ := ctrl_stage_notes (fs_p1 seg)
  rw [he2] at h2
  obtain ⟨h1, h2e⟩ := List.append_eq_nil.mp h2
  rw [hi2 h2e]
  unfold fs_p1 at h1 ⊢
  obtain ⟨e1, he1, hi1⟩ := subst_pass_notes SUBSTITUTIONS seg.data []
  rw [he1] at h1
  simp only [List.nil_append] at h1
  exact hi1 h1

/-- Backward direction: an unchanged segment means no note was recorded. -/
theorem fs_p6_fixed_unchanged (cfg : ScanConfig) (seg : String)
    (hfix : (fs_p6 cfg seg).1 = seg.data) : (fs_p6 cfg seg).2 = [] := by
  obtain ⟨hv1, hv2, hv3, hv4, hv5, hv6⟩ := fs_fst_eqs seg cfg
  -- no forbidden character survives the pipeline, so none was there to begin with
  have nf0 : ∀ c ∈ FORBIDDEN_CHARS, c ∉ seg.data := by
    intro c hcF
    rw [← hfix, hv6, hv5, hv4, hv3, hv2, hv1]
    exact not_mem_nfc_step
      (not_mem_space_step
        (not_mem_device_step
          (not_mem_trim_step (not_mem_ctrl_step (subst_step_clean seg.data c hcF)))
          (underscore_not_forbidden c hcF)))
      (forbidden_not_nfc_output c hcF)
  have hp1 : fs_p1 seg = (seg.data, []) := by
    unfold fs_p1
    exact subst_pass_clean_id SUBSTITUTIONS seg.data []
      (fun e he => nf0 e.1 (subs_fst_forbidden e he))
  -- no control character survives stage 2 onwards, so the gate was off
  have nc0 : hasCtrl seg.data = false := by
    rw [← hfix, hv6, hv5, hv4, hv3, hv2]
    exact hasCtrl_nfc_step (hasCtrl_space_step (hasCtrl_device_step (hasCtrl_trim_step
      (hasCtrl_ctrlFilter _))))
  have hp2 : fs_p2 seg = (seg.data, []) := by
    unfold fs_p2
    rw [hp1]
    exact ctrl_stage_id _ nc0
  -- the trailing-strip gate was off
  have hp3 : fs_p3 seg = (seg.data, []) := by
    unfold fs_p3
    rw [hp2]
    by_cases htr : has_trailing_space_or_period seg.data = true
    · exfalso
      have t3 : has_trailing_space_or_period (fs_p3 seg).1 = false := by
        rw [hv3, hp2]
        show has_trailing_space_or_period (trim_step seg.data) = false
        unfold trim_step
        exact has_trailing_rstripSP _
      have t6 : has_trailing_space_or_period (fs_p6 cfg seg).1 = false := by
        rw [hv6, hv5, hv4]
        exact trailing_nfc_step (trailing_space_step (trailing_device_step t3))
      rw [hfix] at t6
      rw [htr] at t6
      exact Bool.noConfusion t6
    · simp only [Bool.not_eq_true] at htr
      exact trim_stage_id _ htr
  -- the reserved-device gate was off
  have hp4 : fs_p4 seg = (seg.data, []) := by
    unfold fs_p4
    rw [hp3]
    by_cases hrd : is_reserved_device seg.data = true
    · exfalso
      have cnt4 : ((fs_p4 seg).1).count '_' = (seg.data.count '_') + 1 := by
        rw [hv4, hp3]
        show (device_step seg.data).count '_' = seg.data.count '_' + 1
        unfold device_step
        rw [if_pos hrd]
        simp
      have cnt6 : ((fs_p6 cfg seg).1).count '_' = (seg.data.count '_') + 1 := by
        rw [hv6, hv5, count_underscore_nfc_step, count_underscore_space_step, cnt4]
      rw [hfix] at cnt6
      omega
    · simp only [Bool.not_eq_true] at hrd
      exact device_stage_id _ hrd
  -- the space-collapsing stage was a no-op
  have hp5 : fs_p5 cfg seg = (seg.data, []) := by
    unfold fs_p5
    rw [hp4]
    by_cases hsp : multispace_collapse seg.data = seg.data
    · exact space_stage_id_eq cfg _ hsp
    · by_cases hen : cfg.collapse_spaces = true
      · exfalso
        have hlen5 : ((fs_p5 cfg seg).1).length < seg.data.length := by
          rw [hv5, hp4]
          show (space_step cfg seg.data).length < seg.data.length
          unfold space_step
          rw [if_pos hen]
          exact length_multispace_lt _ hsp
        have hlen6 : ((fs_p6 cfg seg).1).length ≤ ((fs_p5 cfg seg).1).length := by
          rw [hv6]
          exact length_nfc_step_le cfg _
        rw [hfix] at hlen6
        omega
      · simp only [Bool.not_eq_true] at hen
        exact space_stage_id_disabled cfg _ hen
  -- the NFC stage was a no-op
  have hp6 : fs_p6 cfg seg = (seg.data, []) := by
    unfold fs_p6
    rw [hp5]
    by_cases hnf : nfcChars seg.data = seg.data
    · exact nfc_stage_id_eq cfg _ hnf
    · by_cases hen : cfg.normalize_unicode_nfc = true
      · exfalso
        have hv6' : (fs_p6 cfg seg).1 = nfcChars seg.data := by
          rw [hv6, hp5]
          show nfc_step cfg seg.data = nfcChars seg.data
          unfold nfc_step
          rw [if_pos hen]
        rw [hfix] at hv6'
        exact hnf hv6'.symm
      · simp only [Bool.not_eq_true] at hen
        exact nfc_stage_id_disabled cfg _ hen
  rw [hp6]

/-! ## C4: the exact note inventory of fix_segment -/

theorem mem_replaceChar_iff (a b : Char) (repl : List Char) (l : List Char)
    (hne : b ≠ a) (hrepl : b ∉ repl) : b ∈ replaceChar a repl l ↔ b ∈ l := by
  induction l with
  | nil => simp [replaceChar]
  | cons c r ih =>
    simp only [replaceChar, List.mem_append, List.mem_cons, ih]
    split
    · next hc =>
      subst hc
      constructor
      · rintro (hm | hm)
        · exact absurd hm hrepl
        · exact Or.inr hm
      · rintro (hm | hm)
        · exact absurd hm hne
        · exact Or.inr hm
    · constructor
      · rintro (hm | hm)
        · simp only [List.mem_singleton] at hm
          exact Or.inl hm
        · exact Or.inr hm
      · rintro (hm | hm)
        · exact Or.inl (by simp [hm])
        · exact Or.inr hm

/-- The notes recorded by the substitution loop: one per table entry whose
character occurs in the processed string (an entry's character still occurs
when the entry is reached, because the earlier entries replace only their own,
distinct characters and introduce no table character). -/
theorem subst_pass_snd :
    ∀ (entries : List (Char × List Char × String)) (out : List Char) (chs : List String),
      (∀ e ∈ entries, ∀ e2 ∈ entries, e.1 ∉ e2.2.1) →
      entries.Pairwise (fun a b => a.1 ≠ b.1) →
      (subst_pass entries (out, chs)).2
        = chs ++ entries.filterMap (fun e => if e.1 ∈ out then some e.2.2 else none) := by
  intro entries
  induction entries with
  | nil => intro out chs _ _; simp [subst_pass]
  | cons e rest ih =>
    intro out chs hrepl hpw
    obtain ⟨ch, repl, note⟩ := e
    rw [List.pairwise_cons] at hpw
    simp only [subst_pass]
    by_cases hmem : ch ∈ out
    · rw [if_pos hmem]
      have hself : ch ∉ repl :=
        hrepl _ (List.mem_cons_self _ _) _ (List.mem_cons_self _ _)
      have hchange : replaceChar ch repl out ≠ out := by
        intro heq
        exact replaceChar_not_mem_self ch repl out hself (heq.symm ▸ hmem)
      rw [if_pos hchange]
      rw [ih (replaceChar ch repl out) (chs ++ [note])
        (fun a ha b hb => hrepl a (List.mem_cons_of_mem _ ha) b (List.mem_cons_of_mem _ hb))
        hpw.2]
      have hcong : rest.filterMap
            (fun e2 => if e2.1 ∈ replaceChar ch repl out then some e2.2.2 else none)
          = rest.filterMap (fun e2 => if e2.1 ∈ out then some e2.2.2 else none) := by
        apply List.filterMap_congr
        intro a ha
        have hiff := mem_replaceChar_iff ch a.1 repl out
          (Ne.symm (hpw.1 a ha))
          (hrepl a (List.mem_cons_of_mem _ ha) _ (List.mem_cons_self _ _))
        simp [hiff]
      rw [hcong]
      simp [List.filterMap_cons, hmem, List.append_assoc]
    · rw [if_neg hmem]
      rw [ih out chs
        (fun a ha b hb => hrepl a (List.mem_cons_of_mem _ ha) b (List.mem_cons_of_mem _ hb))
        hpw.2]
      simp [List.filterMap_cons, hmem]

theorem ctrl_stage_snd (p : List Char × List String) :
    (ctrl_stage p).2
      = p.2 ++ (if ctrl_step p.1 ≠ p.1 then ["Remove control chars (0-31)"] else []) := by
  unfold ctrl_stage ctrl_step
  split
  · dsimp only
    split
    · rfl
    · simp
  · next h =>
    have hid := ctrlFilter_eq_self p.1 (Bool.not_eq_true _ ▸ h)
    rw [if_neg (by simp [hid])]
    simp

theorem trim_stage_snd (p : List Char × List String) :
    (trim_stage p).2
      = p.2 ++ (if trim_step p.1 ≠ p.1 then ["Trim trailing spaces/periods"] else []) := by
  unfold trim_stage trim_step
  split
  · dsimp only
    split
    · rfl
    · simp
  · next h =>
    have hid := rstripSP_eq_self p.1 (Bool.not_eq_true _ ▸ h)
    rw [if_neg (by simp [hid])]
    simp

theorem device_stage_snd (p : List Char × List String) :
    (device_stage p).2
      = p.2 ++ (if device_step p.1 ≠ p.1 then ["Append _ to reserved device name"] else []) := by
  unfold device_stage device_step
  split
  · have hne : p.1 ++ ['_'] ≠ p.1 := by
      intro heq
      have := congrArg List.length heq
      simp at this
    rw [if_pos hne]
  · rw [if_neg (by simp)]
    simp

theorem space_stage_snd (cfg : ScanConfig) (p : List Char × List String) :
    (space_stage cfg p).2
      = p.2 ++ (if space_step cfg p.1 ≠ p.1 then ["Collapse multiple spaces"] else []) := by
  unfold space_stage space_step
  split
  · dsimp only
    split
    · rfl
    · simp
  · rw [if_neg (by simp)]
    simp

theorem nfc_stage_snd (cfg : ScanConfig) (p : List Char × List String) :
    (nfc_stage cfg p).2
      = p.2 ++ (if nfc_step cfg p.1 ≠ p.1 then ["Normalize Unicode to NFC"] else []) := by
  unfold nfc_stage nfc_step
  split
  · dsimp only
    split
    · rfl
    · simp
  · rw [if_neg (by simp)]
    simp

/-- The note inventory described by the amended C4: one note per
substitution-table entry whose character occurs in the segment (exactly the
entries whose substitution changes the value), then one note for each of the
five later steps that changed the value, in step order. -/
def subst_notes (l : List Char) : List String :=
  SUBSTITUTIONS.filterMap (fun e => if e.1 ∈ l then some e.2.2 else none)

def fix_notes (seg : String) (cfg : ScanConfig) : List String :=
  let s1 := subst_step seg.data
  let s2 := ctrl_step s1
  let s3 := trim_step s2
  let s4 := device_step s3
  let s5 := space_step cfg s4
  let s6 := nfc_step cfg s5
  subst_notes seg.data ++
    (if s2 ≠ s1 then ["Remove control chars (0-31)"] else []) ++
    (if s3 ≠ s2 then ["Trim trailing spaces/periods"] else []) ++
    (if s4 ≠ s3 then ["Append _ to reserved device name"] else []) ++
    (if s5 ≠ s4 then ["Collapse multiple spaces"] else []) ++
    (if s6 ≠ s5 then ["Normalize Unicode to NFC"] else [])

theorem subs_pairwise_ne : SUBSTITUTIONS.Pairwise (fun a b => a.1 ≠ b.1) := by decide

theorem subs_repl_free : ∀ e ∈ SUBSTITUTIONS, ∀ e2 ∈ SUBSTITUTIONS, e.1 ∉ e2.2.1 := by
  decide

/-- The note list of `fix_segment` is exactly `fix_notes`. -/
theorem fix_segment_notes (seg : String) (cfg : ScanConfig) :
    (fix_segment seg cfg).changes = fix_notes seg cfg := by
  obtain ⟨hv1, hv2, hv3, hv4, hv5, hv6⟩ := fs_fst_eqs seg cfg
  have e1 : (fs_p1 seg).1 = subst_step seg.data := hv1
  have e2 : (fs_p2 seg).1 = ctrl_step (subst_step seg.data) := by rw [hv2, e1]
  have e3 : (fs_p3 seg).1 = trim_step (ctrl_step (subst_step seg.data)) := by rw [hv3, e2]
  have e4 : (fs_p4 seg).1
      = device_step (trim_step (ctrl_step (subst_step seg.data))) := by rw [hv4, e3]
  have e5 : (fs_p5 cfg seg).1
      = space_step cfg (device_step (trim_step (ctrl_step (subst_step seg.data)))) := by
    rw [hv5, e4]
  rw [fix_segment_changes]
  unfold fix_notes
  dsimp only
  unfold fs_p6
  rw [nfc_stage_snd, e5]
  unfold fs_p5
  rw [space_stage_snd, e4]
  unfold fs_p4
  rw [device_stage_snd, e3]
  unfold fs_p3
  rw [trim_stage_snd, e2]
  unfold fs_p2
  rw [ctrl_stage_snd, e1]
  unfold fs_p1
  rw [subst_pass_snd SUBSTITUTIONS seg.data [] subs_repl_free subs_pairwise_ne]
  simp [subst_notes, List.append_assoc]

/-- C4, counterexample: on the segment `"a:b?"` (default config) exactly one
of the six steps changes the value — the substitution step; the five later
steps are all no-ops — yet two change notes are recorded (one per applied
table entry, for `:` and for `?`).  So the original claim's "one change note
per step that changed the value", which predicts a single note here, is false
of the code. -/
theorem fix_segment_one_note_cex :
    (fix_segment "a:b?" ⟨260, false, false⟩).changes.length = 2 ∧
    subst_step "a:b?".data ≠ "a:b?".data ∧
    ctrl_step (subst_step "a:b?".data) = subst_step "a:b?".data ∧
    trim_step (ctrl_step (subst_step "a:b?".data)) = ctrl_step (subst_step "a:b?".data) ∧
    device_step (trim_step (ctrl_step (subst_step "a:b?".data)))
      = trim_step (ctrl_step (subst_step "a:b?".data)) ∧
    space_step ⟨260, false, false⟩ (device_step (trim_step (ctrl_step (subst_step "a:b?".data))))
      = device_step (trim_step (ctrl_step (subst_step "a:b?".data))) ∧
    nfc_step ⟨260, false, false⟩
        (space_step ⟨260, false, false⟩
          (device_step (trim_step (ctrl_step (subst_step "a:b?".data)))))
      = space_step ⟨260, false, false⟩
          (device_step (trim_step (ctrl_step (subst_step "a:b?".data)))) := by
  decide

/-- C4, amended: `fix_segment` applies exactly the six steps in this order —
(1) the fixed substitution table, (2) removal of remaining control characters,
(3) repeated right-stripping of trailing spaces and periods, (4) appending `_`
to a reserved device name, (5) collapsing space runs when enabled, (6) NFC
normalization when enabled — starting from the original segment; it returns
the final segment together with the change notes `fix_notes`: one note per
substitution-table entry whose character occurs in the segment (each such
substitution changes the value), then one note for each later step that
changed the value, in step order; and the note list is empty if and only if
the segment is returned unchanged. -/
theorem fix_segment_spec (seg : String) (cfg : ScanConfig) :
    (fix_segment seg cfg).original = seg ∧
    (fix_segment seg cfg).fixed
      = ⟨nfc_step cfg (space_step cfg (device_step (trim_step (ctrl_step (subst_step seg.data)))))⟩ ∧
    (fix_segment seg cfg).changes = fix_notes seg cfg ∧
    ((fix_segment seg cfg).changes = [] ↔ (fix_segment seg cfg).fixed = seg) := by
  refine ⟨rfl, ?_, fix_segment_notes seg cfg, ?_⟩
  · rw [fix_segment_fixed_eq, fs_p6_fst]
  · rw [fix_segment_changes, fix_segment_fixed_eq]
    constructor
    · intro hch
      rw [fs_p6_changes_nil cfg seg hch]
    · intro hfx
      have : (fs_p6 cfg seg).1 = seg.data := congrArg String.data hfx
      exact fs_p6_fixed_unchanged cfg seg this

/-! ## C5: the auto option never contains forbidden or control characters -/

theorem fs_p6_no_forbidden (cfg : ScanConfig) (seg : String) :
    ∀ c ∈ FORBIDDEN_CHARS, c ∉ (fs_p6 cfg seg).1 := by
  obtain ⟨hv1, hv2, hv3, hv4, hv5, hv6⟩ := fs_fst_eqs seg cfg
  intro c hcF
  rw [hv6, hv5, hv4, hv3, hv2, hv1]
  exact not_mem_nfc_step
    (not_mem_space_step
      (not_mem_device_step
        (not_mem_trim_step (not_mem_ctrl_step (subst_step_clean seg.data c hcF)))
        (underscore_not_forbidden c hcF)))
    (forbidden_not_nfc_output c hcF)

theorem fs_p6_no_ctrl (cfg : ScanConfig) (seg : String) :
    hasCtrl (fs_p6 cfg seg).1 = false := by
  obtain ⟨hv1, hv2, hv3, hv4, hv5, hv6⟩ := fs_fst_eqs seg cfg
  rw [hv6, hv5, hv4, hv3, hv2]
  exact hasCtrl_nfc_step (hasCtrl_space_step (hasCtrl_device_step (hasCtrl_trim_step
    (hasCtrl_ctrlFilter _))))

theorem contains_forbidden_false_iff (l : List Char) :
    contains_forbidden l = false ↔ (∀ c ∈ l, c ∉ FORBIDDEN_CHARS) ∧ hasCtrl l = false := by
  simp only [contains_forbidden, Bool.or_eq_false_iff]
  constructor
  · rintro ⟨h1, h2⟩
    refine ⟨?_, h2⟩
    intro c hc hcF
    have : l.any (fun c => FORBIDDEN_CHARS.contains c) = true :=
      List.any_eq_true.mpr ⟨c, hc, by simpa using hcF⟩
    rw [this] at h1
    exact Bool.noConfusion h1
  · rintro ⟨h1, h2⟩
    refine ⟨?_, h2⟩
    rw [Bool.eq_false_iff]
    intro hany
    obtain ⟨c, hc, hcF⟩ := List.any_eq_true.mp hany
    exact h1 c hc (by simpa using hcF)

/-- Every fixed segment produced by `fix_segment` passes the repository's own
forbidden-character check. -/
theorem fix_segment_clean (seg : String) (cfg : ScanConfig) :
    contains_forbidden ((fix_segment seg cfg).fixed).data = false := by
  rw [fix_segment_fixed_eq]
  exact (contains_forbidden_false_iff _).mpr
    ⟨fun c hc hcF => fs_p6_no_forbidden cfg seg c hcF hc, fs_p6_no_ctrl cfg seg⟩

/-! ## C5: splitting the rejoined path recovers the fixed segments -/

theorem splitChars_ne_nil (sep : Char) : ∀ (l : List Char), splitChars sep l ≠ [] := by
  intro l
  induction l with
  | nil => simp [splitChars]
  | cons c r ih =>
    simp only [splitChars]
    split
    · simp
    · rcases h : splitChars sep r with _ | ⟨x, xs⟩
      · exact absurd h ih
      · simp

theorem splitChars_no_sep (sep : Char) : ∀ (l : List Char), sep ∉ l →
    splitChars sep l = [l] := by
  intro l
  induction l with
  | nil => intro _; rfl
  | cons c r ih =>
    intro h
    simp only [List.mem_cons] at h
    push_neg at h
    simp only [splitChars, if_neg (Ne.symm h.1)]
    rw [ih h.2]

theorem splitChars_append_sep (sep : Char) : ∀ (x m : List Char), sep ∉ x →
    splitChars sep (x ++ sep :: m) = x :: splitChars sep m := by
  intro x
  induction x with
  | nil =>
    intro m _
    simp [splitChars]
  | cons c r ih =>
    intro m h
    simp only [List.mem_cons] at h
    push_neg at h
    simp only [List.cons_append, splitChars, if_neg (Ne.symm h.1), List.append_eq, ih m h.2]

theorem split_join_chars : ∀ (ls : List (List Char)), ls ≠ [] →
    (∀ x ∈ ls, '/' ∉ x) → splitChars '/' (joinChars ls) = ls := by
  intro ls
  induction ls with
  | nil => intro h; exact absurd rfl h
  | cons x t ih =>
    intro _ hns
    cases t with
    | nil =>
      show splitChars '/' x = [x]
      exact splitChars_no_sep '/' x (hns x (List.mem_cons_self _ _))
    | cons y ys =>
      show splitChars '/' (x ++ '/' :: joinChars (y :: ys)) = x :: y :: ys
      rw [splitChars_append_sep '/' x _ (hns x (List.mem_cons_self _ _))]
      rw [ih (by simp) (fun z hz => hns z (List.mem_cons_of_mem _ hz))]

theorem split_slash_ne_nil (s : String) : split_slash s ≠ [] := by
  unfold split_slash
  intro h
  exact splitChars_ne_nil '/' s.data (by simpa using congrArg (List.map String.data) h)

theorem split_join (l : List String) (hne : l ≠ [])
    (h : ∀ s ∈ l, '/' ∉ s.data) : split_slash (join_slash l) = l := by
  unfold split_slash join_slash
  show (splitChars '/' (joinChars (l.map String.data))).map (⟨·⟩) = l
  rw [split_join_chars (l.map String.data) (by simpa using hne)
    (by
      intro x hx
      obtain ⟨s, hs, rfl⟩ := List.mem_map.mp hx
      exact h s hs)]
  rw [List.map_map]
  exact List.map_id'' (fun s => rfl) l

/-- The path of an `"auto"` option is the rejoined fixed segments. -/
theorem auto_mem_generate (rel_path : String) (cfg : ScanConfig)
    (label path : String) (warns : List String)
    (h : ("auto", label, path, warns) ∈ generate_fix_options rel_path cfg) :
    path = join_slash ((split_slash rel_path).map (fun s => (fix_segment s cfg).fixed)) := by
  simp only [generate_fix_options] at h
  rcases List.mem_append.mp h with h12 | h3
  · rcases List.mem_append.mp h12 with h1 | h2
    · split at h1
      · simp only [List.mem_singleton, Prod.mk.injEq] at h1
        have h2 := h1.2.2.1
        rw [List.map_map] at h2
        exact h2
      · simp only [List.mem_singleton, Prod.mk.injEq] at h1
        exact absurd h1.1 (by decide)
    · split at h2
      · simp only [List.mem_singleton, Prod.mk.injEq] at h2
        exact absurd h2.1 (by decide)
      · simp at h2
  · split at h3
    · split at h3
      · simp only [List.mem_singleton, Prod.mk.injEq] at h3
        exact absurd h3.1 (by decide)
      · simp at h3
    · simp at h3

/-- C5: whenever `generate_fix_options` emits an option keyed `"auto"`, no
segment of that option's preview path contains a character from the forbidden
set or a control character (i.e. every segment passes `_contains_forbidden`). -/
theorem auto_option_clean (rel_path : String) (cfg : ScanConfig)
    (label path : String) (warns : List String)
    (h : ("auto", label, path, warns) ∈ generate_fix_options rel_path cfg) :
    ∀ seg ∈ split_slash path, contains_forbidden seg.data = false := by
  have hpath := auto_mem_generate rel_path cfg label path warns h
  have hclean : ∀ s ∈ (split_slash rel_path).map (fun s => (fix_segment s cfg).fixed),
      contains_forbidden s.data = false := by
    intro s hs
    obtain ⟨s0, _, rfl⟩ := List.mem_map.mp hs
    exact fix_segment_clean s0 cfg
  have hnoslash : ∀ s ∈ (split_slash rel_path).map (fun s => (fix_segment s cfg).fixed),
      '/' ∉ s.data := by
    intro s hs hmem
    have h2 := (contains_forbidden_false_iff s.data).mp (hclean s hs)
    exact h2.1 '/' hmem (by decide)
  have hne : (split_slash rel_path).map (fun s => (fix_segment s cfg).fixed) ≠ [] := by
    intro h0
    exact split_slash_ne_nil rel_path (by simpa using congrArg (List.map (fun s => (fix_segment s cfg).fixed)) h0)
  rw [hpath, split_join _ hne hnoslash]
  exact hclean

/-- Witness for C5: the `"auto"` option produced for `"bad:name?.txt"` (the
spec's own end-to-end example) and its clean preview `"bad -name.txt"`. -/
theorem auto_option_clean_witness :
    (("auto", "Auto sanitize (recommended)", "bad -name.txt",
        ["bad:name?.txt: Replace \":\" -> \" -\"", "bad:name?.txt: Replace \"?\" -> \"\""])
      ∈ generate_fix_options "bad:name?.txt" ⟨260, false, false⟩) ∧
    (∀ seg ∈ split_slash "bad -name.txt", contains_forbidden seg.data = false) :=
  ⟨by decide,
    auto_option_clean "bad:name?.txt" ⟨260, false, false⟩ "Auto sanitize (recommended)"
      "bad -name.txt"
      ["bad:name?.txt: Replace \":\" -> \" -\"", "bad:name?.txt: Replace \"?\" -> \"\""]
      (by decide)⟩

/-! ## C9 and C10: structure of the items emitted by build_scan -/

theorem generate_fix_options_ne_nil (rel_path : String) (cfg : ScanConfig) :
    generate_fix_options rel_path cfg ≠ [] := by
  unfold generate_fix_options
  dsimp only
  split <;> simp

/-- Any item `scan_item` emits carries the path it was built from and the
fix-option data computed by `scan_fix`. -/
theorem scan_item_fields (repo : String) (cfg : ScanConfig) (is_dir is_link : String → Bool)
    (case_coll nfc_coll : List (String × List String)) (rel : String) (it : ScanItem)
    (h : scan_item repo cfg is_dir is_link case_coll nfc_coll rel = some it) :
    it.rel_path = rel ∧
    it.fix_options = (scan_fix rel cfg).1 ∧
    it.proposed_fix = some (scan_fix rel cfg).2 ∧
    it.chosen_fix_key = head_key (scan_fix rel cfg).1 := by
  unfold scan_item at h
  split at h
  · exact Option.noConfusion h
  · dsimp only at h
    repeat' split at h
    all_goals
      first
      | exact Option.noConfusion h
      | (obtain rfl := (Option.some.inj h).symm
         exact ⟨rfl, rfl, rfl, rfl⟩)

/-- The fix options computed for a path are never empty, and the proposed fix
is the first option's preview or that of the appended `"shorten"` option. -/
theorem scan_fix_spec (rel : String) (cfg : ScanConfig) :
    (scan_fix rel cfg).1 ≠ [] ∧
    ((∃ o, (scan_fix rel cfg).1.head? = some o ∧ (scan_fix rel cfg).2 = o.preview_path) ∨
      (∃ o ∈ (scan_fix rel cfg).1, o.key = "shorten" ∧
        (scan_fix rel cfg).2 = o.preview_path)) := by
  unfold scan_fix
  dsimp only
  rcases hopts : generate_fix_options rel cfg with _ | ⟨o0, os⟩
  · exact absurd hopts (generate_fix_options_ne_nil rel cfg)
  · simp only [List.map_cons]
    by_cases hlen : rel.length > cfg.max_path
    · simp only [if_pos hlen]
      by_cases hpr : (FixOption.mk o0.1 o0.2.1 o0.2.2.1 o0.2.2.2).preview_path = rel
      · rw [if_pos hpr]
        exact ⟨by simp, Or.inr
          ⟨FixOption.mk "shorten" "Shorten to configured limit" (shorten_path rel cfg.max_path)
              ["Heuristic truncation with hash suffix"],
            List.mem_append_right _ (List.mem_singleton.mpr rfl), rfl, rfl⟩⟩
      · rw [if_neg hpr]
        exact ⟨by simp, Or.inl ⟨FixOption.mk o0.1 o0.2.1 o0.2.2.1 o0.2.2.2, by simp, rfl⟩⟩
    · simp only [if_neg hlen]
      exact ⟨by simp, Or.inl ⟨FixOption.mk o0.1 o0.2.1 o0.2.2.1 o0.2.2.2, by simp, rfl⟩⟩

/-- The key recorded by `scan_item` is the key of the first generator
option, also when the `"shorten"` option was appended at the end. -/
theorem scan_fix_head_key (rel : String) (cfg : ScanConfig) :
    ∃ o, (generate_fix_options rel cfg).head? = some o ∧
      head_key (scan_fix rel cfg).1 = some o.1 := by
  unfold scan_fix
  dsimp only
  rcases hopts : generate_fix_options rel cfg with _ | ⟨o0, os⟩
  · exact absurd hopts (generate_fix_options_ne_nil rel cfg)
  · simp only [List.map_cons]
    by_cases hlen : rel.length > cfg.max_path
    · simp only [if_pos hlen]
      exact ⟨o0, rfl, by simp [head_key]⟩
    · simp only [if_neg hlen]
      exact ⟨o0, rfl, by simp [head_key]⟩

/-- C9: every Scan Item emitted by `build_scan` has a non-empty list of fix
options, and its `proposed_fix` is the preview path of one of them: the first
option, or the `"shorten"` option (which is chosen exactly when the path is
over-long and no content-based option changed the path). -/
theorem build_scan_item_spec (repo : String) (files : List String)
    (is_dir is_link : String → Bool) (cfg : ScanConfig) (it : ScanItem)
    (h : it ∈ build_scan repo files is_dir is_link cfg) :
    it.fix_options ≠ [] ∧
    ((∃ o, it.fix_options.head? = some o ∧ it.proposed_fix = some o.preview_path) ∨
      (∃ o ∈ it.fix_options, o.key = "shorten" ∧ it.proposed_fix = some o.preview_path)) := by
  unfold build_scan at h
  obtain ⟨rel, _, hsome⟩ := List.mem_filterMap.mp h
  obtain ⟨_, hfix, hprop, _⟩ := scan_item_fields _ _ _ _ _ _ rel it hsome
  obtain ⟨hne, hdisj⟩ := scan_fix_spec rel cfg
  rw [hfix, hprop]
  refine ⟨hne, ?_⟩
  rcases hdisj with ⟨o, ho1, ho2⟩ | ⟨o, hm, hk, hp⟩
  · exact Or.inl ⟨o, ho1, by rw [ho2]⟩
  · exact Or.inr ⟨o, hm, hk, by rw [hp]⟩

/-- The item used in the C9 witness: the single finding for a repository
containing only `"bad:name?.txt"`. -/
def c9_item : ScanItem :=
  List.getD (build_scan "repo" ["bad:name?.txt"] (fun _ => false) (fun _ => false)
    ⟨260, false, false⟩) 0 (ScanItem.mk ItemType.FILE "" "" [] none [] none "Pending" true [])

/-- Witness for C9 at the spec's end-to-end example input. -/
theorem build_scan_item_spec_witness :
    (c9_item ∈ build_scan "repo" ["bad:name?.txt"] (fun _ => false) (fun _ => false)
      ⟨260, false, false⟩) ∧
    (c9_item.fix_options ≠ [] ∧
      ((∃ o, c9_item.fix_options.head? = some o ∧ c9_item.proposed_fix = some o.preview_path) ∨
        (∃ o ∈ c9_item.fix_options, o.key = "shorten" ∧
          c9_item.proposed_fix = some o.preview_path))) :=
  ⟨by decide,
    build_scan_item_spec "repo" ["bad:name?.txt"] (fun _ => false) (fun _ => false)
      ⟨260, false, false⟩ c9_item (by decide)⟩

/-- C10: for every item emitted by `build_scan`, `chosen_fix_key` is the key
of the *first* option produced by `generate_fix_options` — even when the path
exceeds `max_path` and the appended `"shorten"` option's path becomes the
default `proposed_fix` — so `chosen_fix_key` can name an option (`"none"` or
`"auto"`) whose preview path differs from the item's `proposed_fix`. -/
theorem build_scan_chosen_key (repo : String) (files : List String)
    (is_dir is_link : String → Bool) (cfg : ScanConfig) (it : ScanItem)
    (h : it ∈ build_scan repo files is_dir is_link cfg) :
    ∃ o, (generate_fix_options it.rel_path cfg).head? = some o ∧
      it.chosen_fix_key = some o.1 := by
  unfold build_scan at h
  obtain ⟨rel, _, hsome⟩ := List.mem_filterMap.mp h
  obtain ⟨hrel, _, _, hchosen⟩ := scan_item_fields _ _ _ _ _ _ rel it hsome
  obtain ⟨o, h1, h2⟩ := scan_fix_head_key rel cfg
  exact ⟨o, by rw [hrel]; exact h1, by rw [hchosen]; exact h2⟩

/-- The item used in the C10 witness: a clean 261-character file name, whose
only issue is its length; its first option is `"none"`, yet the proposed fix
is the shortened path. -/
def c10_item : ScanItem :=
  List.getD (build_scan "repo" [⟨List.replicate 261 'a'⟩] (fun _ => false) (fun _ => false)
    ⟨260, false, false⟩) 0 (ScanItem.mk ItemType.FILE "" "" [] none [] none "Pending" true [])

/-- Witness for C10: at the over-long input the chosen key is `"none"` while
the proposed fix differs from the `"none"` option's preview (the rel_path). -/
theorem build_scan_chosen_key_witness :
    (c10_item ∈ build_scan "repo" [⟨List.replicate 261 'a'⟩] (fun _ => false) (fun _ => false)
      ⟨260, false, false⟩) ∧
    (∃ o, (generate_fix_options c10_item.rel_path ⟨260, false, false⟩).head? = some o ∧
      c10_item.chosen_fix_key = some o.1) ∧
    c10_item.chosen_fix_key = some "none" ∧
    c10_item.proposed_fix ≠ some c10_item.rel_path :=
  ⟨by decide,
    build_scan_chosen_key "repo" [⟨List.replicate 261 'a'⟩] (fun _ => false) (fun _ => false)
      ⟨260, false, false⟩ c10_item (by decide),
    by decide, by decide⟩

end RepoPathSanitizer
